import Mathlib

/-!
Verification of the NILM template repository's algorithmic cores against its
specification.  The embedding follows `src/ml/common.py` (status labeling and
window generation) and `src/ml/transformer_model.py` (relative position
embedding and the custom train/test steps).  Python floats are modelled by
exact rationals, numpy arrays by lists.
-/

namespace NILM

/-! ## Status labeler (`compute_status` in src/ml/common.py)

`compute_status` thresholds the power trace, finds transition indices via
`np.diff(...).nonzero() + 1`, inserts boundary events when the trace starts or
ends above threshold, pairs the events into (on, off) pairs, filters them by
minimum off- and on-durations and finally paints the surviving `[on, off)`
ranges with 1 over an all-zero status list. -/

/-- Thresholding step: `initial_status = appliance_power >= threshold`. -/
def threshStatus (power : List ℚ) (threshold : ℚ) : List Bool :=
  power.map (fun p => decide (threshold ≤ p))

/-- Transition indices: `np.diff(initial_status).nonzero()` followed by `+= 1`.
`np.diff` on a boolean array marks positions whose neighbours differ. -/
def transitionIdxs (b : List Bool) : List ℕ :=
  ((List.range (b.length - 1)).filter
    (fun i => decide (b.getD i false ≠ b.getD (i + 1) false))).map (· + 1)

/-- Event indices after the first/last-transition adjustment: a 0 is inserted
in front when `initial_status[0]` holds and `initial_status.size` is appended
when `initial_status[-1]` holds. -/
def eventIdxs (b : List Bool) : List ℕ :=
  (if b.getD 0 false then [0] else []) ++ transitionIdxs b ++
    (if b.getD (b.length - 1) false then [b.length] else [])

/-- `events_idx.reshape((-1, 2))`: consecutive events are paired into
(on, off) pairs; an odd number of events makes the reshape fail. -/
def chunkPairs : List ℕ → Option (List (ℕ × ℕ))
  | [] => some []
  | [_] => none
  | x :: y :: t => (chunkPairs t).map (fun r => (x, y) :: r)

/-- Numpy boolean-mask indexing `xs[mask]`: keep the elements whose mask
entry is true. -/
def maskFilter {α : Type} : List α → List Bool → List α
  | [], _ => []
  | _, [] => []
  | x :: xs, m :: ms => if m then x :: maskFilter xs ms else maskFilter xs ms

/-- Gap durations `np.insert(on_events[1:] - off_events[:-1], 0, 1000)`:
a 1000-sample sentinel precedes the real inter-run gaps. -/
def offDurations (ons offs : List ℕ) : List ℤ :=
  (1000 : ℤ) ::
    List.zipWith (fun (a b : ℕ) => (a : ℤ) - (b : ℤ)) ons.tail offs.dropLast

/-- `np.roll(xs, -1)`: rotate one position to the left. -/
def roll1 {α : Type} : List α → List α
  | [] => []
  | x :: t => t ++ [x]

/-- `on_events[off_duration > min_off_duration]`. -/
def offFilterOns (minOff : ℤ) (pairs : List (ℕ × ℕ)) : List ℕ :=
  maskFilter (pairs.map Prod.fst)
    ((offDurations (pairs.map Prod.fst) (pairs.map Prod.snd)).map
      (fun g => decide (minOff < g)))

/-- `off_events[np.roll(off_duration, -1) > min_off_duration]`. -/
def offFilterOffs (minOff : ℤ) (pairs : List (ℕ × ℕ)) : List ℕ :=
  maskFilter (pairs.map Prod.snd)
    ((roll1 (offDurations (pairs.map Prod.fst) (pairs.map Prod.snd))).map
      (fun g => decide (minOff < g)))

/-- The duration-filter block of `compute_status`, on the (on, off) event
pairs.  It is skipped when there are no events; the elementwise numpy
subtraction `off_events - on_events` requires equal shapes, hence the length
guard. -/
def labelPairs (minOn minOff : ℤ) (pairs : List (ℕ × ℕ)) :
    Option (List (ℕ × ℕ)) :=
  match pairs with
  | [] => some []
  | _ :: _ =>
    let onKept := offFilterOns minOff pairs
    let offKept := offFilterOffs minOff pairs
    if onKept.length = offKept.length then
      let onDur := List.zipWith (fun (o a : ℕ) => (o : ℤ) - (a : ℤ)) offKept onKept
      let keep := onDur.map (fun d => decide (minOn ≤ d))
      some ((maskFilter onKept keep).zip (maskFilter offKept keep))
    else none

/-- One slice assignment `status[on:off] = [1] * (off - on)`, element by
element with `pos` the index of the head of the remaining list.  All event
indices lie within the list, so the slice never grows the list. -/
def setRunFrom (pos a b : ℕ) : List ℕ → List ℕ
  | [] => []
  | v :: t => (if a ≤ pos ∧ pos < b then 1 else v) :: setRunFrom (pos + 1) a b t

/-- Slice assignment at absolute indices. -/
def setRun (s : List ℕ) (a b : ℕ) : List ℕ :=
  setRunFrom 0 a b s

/-- Final status generation: start from `[0] * size` and paint each
surviving (on, off) range with ones. -/
def buildStatus (n : ℕ) (pairs : List (ℕ × ℕ)) : List ℕ :=
  pairs.foldl (fun s p => setRun s p.1 p.2) (List.replicate n 0)

/-- The full `compute_status` pipeline, parameterised over the threshold and
the duration limits in samples; the spec calls it
`label(power, threshold, min_on_samples, min_off_samples)`.  The empty input
is rejected: the boundary adjustment reads `initial_status[0]` and
`initial_status[-1]` unconditionally, which raises on an empty array. -/
def label (power : List ℚ) (threshold : ℚ) (minOn minOff : ℤ) :
    Option (List ℕ) :=
  match power with
  | [] => none
  | _ :: _ =>
    (chunkPairs (eventIdxs (threshStatus power threshold))).bind fun pairs =>
      (labelPairs minOn minOff pairs).map fun fps =>
        buildStatus power.length fps

/-- Power-sample update period in seconds. -/
def SAMPLE_PERIOD : ℚ := 8

/-- The `ceildiv` helper: `-(a // -b)` on Python floats. -/
def ceildiv (a b : ℚ) : ℤ := -⌊a / (-b)⌋

/-- The per-appliance fields of `params_appliance` used by the labeler. -/
structure ApplianceParams where
  onPowerThreshold : ℚ
  minOnDuration : ℚ
  minOffDuration : ℚ
deriving DecidableEq

def kettle : ApplianceParams := ⟨2000, 12, 0⟩

def microwave : ApplianceParams := ⟨200, 12, 30⟩

def fridge : ApplianceParams := ⟨50, 60, 12⟩

def dishwasher : ApplianceParams := ⟨10, 1800, 1800⟩

def washingmachine : ApplianceParams := ⟨20, 1800, 160⟩

/-- The supported appliances. -/
def applianceList : List ApplianceParams :=
  [kettle, microwave, fridge, dishwasher, washingmachine]

/-- `compute_status(appliance_power, appliance)`: durations are converted
from seconds to samples with `ceildiv`. -/
def compute_status (power : List ℚ) (app : ApplianceParams) :
    Option (List ℕ) :=
  label power app.onPowerThreshold
    (ceildiv app.minOnDuration SAMPLE_PERIOD)
    (ceildiv app.minOffDuration SAMPLE_PERIOD)

/-! ### Verification devices for the labeler (not translated from the source:
reference formulations that the pipeline is proved to agree with). -/

/-- Maximal runs of `true` in a boolean list, as (start, one-past-end)
pairs; `acc` carries the start of a run still open at position `n`. -/
def runsAcc : ℕ → Option ℕ → List Bool → List (ℕ × ℕ)
  | _, none, [] => []
  | n, some s, [] => [(s, n)]
  | n, none, true :: t => runsAcc (n + 1) (some n) t
  | n, none, false :: t => runsAcc (n + 1) none t
  | n, some s, true :: t => runsAcc (n + 1) (some s) t
  | n, some s, false :: t => (s, n) :: runsAcc (n + 1) none t

/-- Maximal runs of `true` in a boolean list. -/
def runsOf (b : List Bool) : List (ℕ × ℕ) := runsAcc 0 none b

/-- Inter-run gaps: the distance from the previous off-event to each
following on-event. -/
def gapsFrom (prev : ℕ) : List (ℕ × ℕ) → List ℤ
  | [] => []
  | p :: t => ((p.1 : ℤ) - prev) :: gapsFrom p.2 t

/-- Recursive reference form of the off-duration merge: a pending pair
(a, b) is emitted when the gap to the next run exceeds `minOff`, otherwise
the two runs merge. -/
def mergeGo (minOff : ℤ) (a b : ℕ) : List (ℕ × ℕ) → List (ℕ × ℕ)
  | [] => [(a, b)]
  | p :: t =>
    if minOff < (p.1 : ℤ) - b then (a, b) :: mergeGo minOff p.1 p.2 t
    else mergeGo minOff a p.2 t

/-- Reference form of the off-duration merge on a whole pair list. -/
def mergePairs (minOff : ℤ) : List (ℕ × ℕ) → List (ℕ × ℕ)
  | [] => []
  | p :: rest => mergeGo minOff p.1 p.2 rest

/-- The event pairs are laid out as `prev.2 < p.1 < p.2 < ...`. -/
def EventsChain : ℕ → List (ℕ × ℕ) → Prop
  | _, [] => True
  | prev, p :: t => prev < p.1 ∧ p.1 < p.2 ∧ EventsChain p.2 t

/-- Ordering relation between merged runs: both upright, separated, and the
separating gap exceeds `minOff`. -/
def PairR (minOff : ℤ) (p q : ℕ × ℕ) : Prop :=
  p.1 < p.2 ∧ q.1 < q.2 ∧ p.2 < q.1 ∧ minOff < (q.1 : ℤ) - p.2

/-- Index `j` lies inside one of the (on, off) ranges. -/
def Covers (ps : List (ℕ × ℕ)) (j : ℕ) : Prop :=
  ∃ p ∈ ps, p.1 ≤ j ∧ j < p.2

instance (ps : List (ℕ × ℕ)) (j : ℕ) : Decidable (Covers ps j) := by
  unfold Covers; infer_instance

/-- A maximal run of consecutive ones in a status list, as the index range
`[i, j)`. -/
def MaximalOnRun (s : List ℕ) (i j : ℕ) : Prop :=
  i < j ∧ j ≤ s.length ∧ (∀ k, i ≤ k → k < j → s.getD k 0 = 1) ∧
    (i = 0 ∨ s.getD (i - 1) 0 ≠ 1) ∧ (j = s.length ∨ s.getD j 0 ≠ 1)

/-- A gap of zeros `[i, j)` lying strictly between two ones. -/
def InteriorGap (s : List ℕ) (i j : ℕ) : Prop :=
  0 < i ∧ i < j ∧ j < s.length ∧ s.getD (i - 1) 0 = 1 ∧ s.getD j 0 = 1 ∧
    ∀ k, i ≤ k → k < j → s.getD k 0 = 0

/-- The last off-event of a nonempty event-pair list whose first off-event
is `b`. -/
def lastSnd (b : ℕ) : List (ℕ × ℕ) → ℕ
  | [] => b
  | q :: t => lastSnd q.2 t

/-- Boolean test for an on/off edge at absolute position `j` (with the
array imagined as padded by `false` on both sides): reference formulation of
the transition/boundary events. -/
def isEdge (b : List Bool) (j : ℕ) : Bool :=
  if j = 0 then b.getD 0 false
  else decide (b.getD (j - 1) false ≠ b.getD j false)

/-- Flatten (on, off) pairs back into the even-length event list. -/
def pairEvents : List (ℕ × ℕ) → List ℕ
  | [] => []
  | p :: t => p.1 :: p.2 :: pairEvents t

/-! ## Window generation (`WindowGenerator` in src/ml/common.py) -/

/-- Window center `int(0.5 * (window_length - 1))` (equal to
`(window_length - 1) / 2` in natural division for any positive length). -/
def windowCenter (windowLength : ℕ) : ℕ := (windowLength - 1) / 2

/-- `self.num_samples = self.total_samples - window_length`. -/
def numSamples (totalSamples windowLength : ℕ) : ℤ :=
  (totalSamples : ℤ) - windowLength

/-- `__len__`: `int(np.ceil(num_samples / batch_size))`. -/
def wgLen (totalSamples windowLength batchSize : ℕ) : ℤ :=
  ⌈(((totalSamples : ℚ) - windowLength) / batchSize)⌉

/-- The state of a `WindowGenerator` in the plain (`p = None`) mode:
`samples, targets, status` are the three parallel arrays and `indices` is the
(possibly shuffled) array of window start indices. -/
structure WindowGen where
  samples : List ℚ
  targets : List ℚ
  status : List ℚ
  batchSize : ℕ
  windowLength : ℕ
  indices : List ℕ

/-- Row indices of batch `index`:
`self.indices[index * batch_size : (index + 1) * batch_size]`. -/
def wgRows (wg : WindowGen) (index : ℕ) : List ℕ :=
  (wg.indices.drop (index * wg.batchSize)).take wg.batchSize

/-- `__getitem__` in training mode: windowed samples plus window-centered
single-point targets and statuses. -/
def wgGetItemTrain (wg : WindowGen) (index : ℕ) :
    List (List ℚ) × List ℚ × List ℚ :=
  let rows := wgRows wg index
  (rows.map (fun r => (wg.samples.drop r).take wg.windowLength),
   rows.map (fun r => wg.targets.getD (r + windowCenter wg.windowLength) 0),
   rows.map (fun r => wg.status.getD (r + windowCenter wg.windowLength) 0))

/-! ## Relative position embedding
(`RelativePositionEmbedding.call` in src/ml/transformer_model.py) -/

/-- The rows emitted for an actual sequence length `L` from a weight table
holding `ceil(max_length / 2)` rows: `pe2 = embeddings[:ceil(L/2)][::-1]`
concatenated with `pe1`, which drops the duplicated center row when `L` is
odd. -/
def relativePositionRows {α : Type} (weights : List α) (L : ℕ) : List α :=
  let embeddings := weights.take ((L + 1) / 2)
  let pe1 := if L % 2 = 0 then embeddings else embeddings.drop 1
  embeddings.reverse ++ pe1

/-! ## Custom train/test steps (`NILMTransformerModelFit`) -/

/-- `tf.where(y_pred >= threshold, 1.0, 0.0)`. -/
def predStatus (threshold : ℚ) (yPred : List ℚ) : List ℚ :=
  yPred.map (fun v => if threshold ≤ v then 1 else 0)

/-- Mean of a list of rationals (0 on the empty list, where TF would yield
NaN; the only use on a possibly empty list is guarded by `tf.where`). -/
def meanQ (l : List ℚ) : ℚ := l.sum / l.length

/-- `tf.keras.losses.MeanSquaredError`. -/
def mseQ (y yPred : List ℚ) : ℚ :=
  meanQ (List.zipWith (fun a b => (a - b) ^ 2) y yPred)

/-- `tf.keras.losses.MeanAbsoluteError` (also the `mae` metric). -/
def maeQ (y yPred : List ℚ) : ℚ :=
  meanQ (List.zipWith (fun a b => |a - b|) y yPred)

/-- `compute_l1_loss`: L1 over the positions where the appliance is on or
the predicted status is wrong; `tf.where(tf.reduce_any(mask), ..., 0.0)`
yields exactly 0 when the selection mask is empty. -/
def compute_l1_loss (y yStatus yPred yPredStatus : List ℚ) : ℚ :=
  let mask := List.zipWith
    (fun s ps => decide ((0 : ℚ) < s) || decide (s ≠ ps)) yStatus yPredStatus
  if mask.any (fun m => m) then
    maeQ (maskFilter y mask) (maskFilter yPred mask)
  else 0

/-- `train_step`, up to but excluding the gradient/optimizer application:
the (loss, mae, msle) values it feeds into the running metrics.  The forward
pass is abstracted by `f`; the binary cross entropy and the mean squared
logarithmic error are abstracted by `bce` and `msle` since they are
transcendental.  All loss inputs are restricted by the `y_status > -1`
loss-inclusion mask. -/
def trainStepOut (bce msle : List ℚ → List ℚ → ℚ) (threshold c0 : ℚ)
    (f : List (List ℚ) → List ℚ) (x : List (List ℚ)) (y yStatus : List ℚ) :
    ℚ × ℚ × ℚ :=
  let yPred := f x
  let mask := yStatus.map (fun s => decide ((-1 : ℚ) < s))
  let ym := maskFilter y mask
  let ypm := maskFilter yPred mask
  let ysm := maskFilter yStatus mask
  let yps := predStatus threshold ypm
  (mseQ ym ypm + bce ysm yps + c0 * compute_l1_loss ym ysm ypm yps,
   maeQ ym ypm, msle ym ypm)

/-- `test_step`: same loss terms and metrics, but computed on the full
batch -- the code never applies the `y_status > -1` mask here. -/
def testStepOut (bce msle : List ℚ → List ℚ → ℚ) (threshold c0 : ℚ)
    (f : List (List ℚ) → List ℚ) (x : List (List ℚ)) (y yStatus : List ℚ) :
    ℚ × ℚ × ℚ :=
  let yPred := f x
  let yps := predStatus threshold yPred
  (mseQ y yPred + bce yStatus yps + c0 * compute_l1_loss y yStatus yPred yps,
   maeQ y yPred, msle y yPred)

end NILM

namespace NILM

/-! ## Utility lemmas about the numpy-style list operations -/

@[simp] theorem maskFilter_nil {α : Type} (ms : List Bool) :
    maskFilter ([] : List α) ms = [] := by
  cases ms <;> rfl

@[simp] theorem maskFilter_nil_right {α : Type} (l : List α) :
    maskFilter l ([] : List Bool) = [] := by
  cases l <;> rfl

@[simp] theorem maskFilter_cons {α : Type} (x : α) (xs : List α) (m : Bool)
    (ms : List Bool) :
    maskFilter (x :: xs) (m :: ms) =
      if m then x :: maskFilter xs ms else maskFilter xs ms := rfl

theorem mem_of_mem_maskFilter {α : Type} {y : α} :
    ∀ {l : List α} {ms : List Bool}, y ∈ maskFilter l ms → y ∈ l := by
  intro l
  induction l with
  | nil => intro ms h; simp at h
  | cons x xs ih =>
    intro ms h
    cases ms with
    | nil => simp at h
    | cons m ms =>
      by_cases hm : m = true
      · subst hm
        simp only [maskFilter_cons, if_true] at h
        rcases List.mem_cons.mp h with h | h
        · exact h ▸ List.mem_cons_self x xs
        · exact List.mem_cons_of_mem x (ih h)
      · simp only [Bool.not_eq_true] at hm
        subst hm
        simp only [maskFilter_cons, Bool.false_eq_true, if_false] at h
        exact List.mem_cons_of_mem x (ih h)

theorem maskFilter_length_count {α : Type} :
    ∀ (l : List α) (ms : List Bool), l.length = ms.length →
      (maskFilter l ms).length = (ms.filter (fun m => m)).length := by
  intro l
  induction l with
  | nil =>
    intro ms h
    cases ms with
    | nil => rfl
    | cons m ms => simp at h
  | cons x xs ih =>
    intro ms h
    cases ms with
    | nil => simp at h
    | cons m ms =>
      simp only [List.length_cons, Nat.succ_inj] at h
      cases m <;> simp [maskFilter_cons, List.filter_cons, ih ms h]

theorem maskFilter_all_true {α : Type} :
    ∀ (l : List α) (ms : List Bool), l.length ≤ ms.length →
      (∀ m ∈ ms, m = true) → maskFilter l ms = l := by
  intro l
  induction l with
  | nil => intro ms _ _; simp
  | cons x xs ih =>
    intro ms hlen hall
    cases ms with
    | nil => simp at hlen
    | cons m ms =>
      have hm : m = true := hall m (List.mem_cons_self m ms)
      subst hm
      simp only [List.length_cons, Nat.succ_le_succ_iff] at hlen
      simp [maskFilter_cons,
        ih ms hlen (fun m hm => hall m (List.mem_cons_of_mem _ hm))]

theorem maskFilter_append_false {α : Type} :
    ∀ (l : List α) (ms : List Bool), l.length ≤ ms.length + 1 →
      maskFilter l (ms ++ [false]) = maskFilter l ms := by
  intro l
  induction l with
  | nil => simp
  | cons x xs ih =>
    intro ms hlen
    cases ms with
    | nil =>
      simp only [List.length_cons, List.length_nil, Nat.zero_add] at hlen
      have : xs = [] := List.length_eq_zero.mp (by omega)
      subst this
      simp [maskFilter_cons]
    | cons m ms =>
      simp only [List.length_cons, Nat.succ_le_succ_iff] at hlen
      cases m <;> simp [maskFilter_cons, ih ms hlen]

theorem maskFilter_zip {α β : Type} :
    ∀ (xs : List α) (ys : List β) (ms : List Bool), xs.length = ms.length →
      xs.length ≤ ys.length →
      (maskFilter xs ms).zip (maskFilter ys ms) = maskFilter (xs.zip ys) ms := by
  intro xs
  induction xs with
  | nil => intro ys ms h _; cases ms with
    | nil => simp
    | cons m ms => simp at h
  | cons x xs ih =>
    intro ys ms hm hy
    cases ms with
    | nil => simp at hm
    | cons m ms =>
      cases ys with
      | nil => simp at hy
      | cons y ys =>
        simp only [List.length_cons, Nat.succ_inj, Nat.succ_le_succ_iff]
          at hm hy
        cases m <;>
          simp [maskFilter_cons, List.zip_cons_cons, ih ys ms hm hy]

theorem maskFilter_map_self {α : Type} (f : α → Bool) :
    ∀ l : List α, maskFilter l (l.map f) = l.filter f := by
  intro l
  induction l with
  | nil => simp
  | cons x xs ih =>
    cases hf : f x <;> simp [maskFilter_cons, List.filter_cons, hf, ih]

theorem zipWith_eq_map_zip {α β γ : Type} (g : β → α → γ) :
    ∀ (xs : List α) (ys : List β),
      List.zipWith g ys xs =
        (List.zipWith Prod.mk xs ys).map (fun p => g p.2 p.1) := by
  intro xs
  induction xs with
  | nil => intro ys; cases ys <;> rfl
  | cons x xs ih =>
    intro ys
    cases ys with
    | nil => rfl
    | cons y ys => simp [List.zipWith_cons_cons, ih ys]

theorem zip_map_fst_snd {α β : Type} :
    ∀ l : List (α × β), (l.map Prod.fst).zip (l.map Prod.snd) = l := by
  intro l
  induction l with
  | nil => rfl
  | cons p t ih => simp [List.zip_cons_cons, ih]

theorem roll1_filter_length {α : Type} (p : α → Bool) :
    ∀ l : List α, ((roll1 l).filter p).length = (l.filter p).length := by
  intro l
  cases l with
  | nil => rfl
  | cons x t =>
    simp only [roll1, List.filter_append, List.length_append, List.filter_cons]
    cases p x <;> simp [Nat.add_comm]

end NILM


namespace NILM

/-! ## Maximal-run extraction: correctness of `runsOf` -/

theorem getD_cons_sub {α : Type} (c : α) (t : List α) (d : α) {n j : ℕ}
    (h : n ≤ j) :
    (c :: t).getD (j - n) d = if j = n then c else t.getD (j - (n + 1)) d := by
  rcases Nat.exists_eq_add_of_le h with ⟨k, rfl⟩
  cases k with
  | zero => simp
  | succ k =>
    have h1 : n + (k + 1) - n = k + 1 := by omega
    have h2 : n + (k + 1) - (n + 1) = k := by omega
    have h3 : ¬(n + (k + 1) = n) := by omega
    simp [h1, h2, h3]

theorem runsAcc_bounds :
    ∀ (l : List Bool) (n : ℕ) (acc : Option ℕ),
      (∀ s, acc = some s → s < n) →
      ∀ p ∈ runsAcc n acc l,
        (∀ s, acc = some s → s ≤ p.1) ∧ (acc = none → n ≤ p.1) ∧
          p.1 < p.2 ∧ n ≤ p.2 ∧ p.2 ≤ n + l.length := by
  intro l
  induction l with
  | nil =>
    intro n acc hacc p hp
    cases acc with
    | none => simp [runsAcc] at hp
    | some s =>
      have hrw : runsAcc n (some s) [] = [(s, n)] := rfl
      rw [hrw, List.mem_singleton] at hp
      subst hp
      refine ⟨?_, ?_, hacc s rfl, Nat.le_refl n, by simp⟩
      · intro u hu
        injection hu with h
        exact Nat.le_of_eq h.symm
      · intro h
        simp at h
  | cons c t ih =>
    intro n acc hacc p hp
    cases acc with
    | none =>
      cases c with
      | true =>
        have hp2 : p ∈ runsAcc (n + 1) (some n) t := hp
        have hb := ih (n + 1) (some n) (fun u hu => by injection hu with h; omega) p hp2
        have hb1 : n ≤ p.1 := hb.1 n rfl
        refine ⟨?_, fun _ => hb1, hb.2.2.1, ?_, ?_⟩
        · intro u hu
          simp at hu
        · have := hb.2.2.2.1; omega
        · have := hb.2.2.2.2; simp only [List.length_cons]; omega
      | false =>
        have hp2 : p ∈ runsAcc (n + 1) none t := hp
        have hb := ih (n + 1) none (fun u hu => by simp at hu) p hp2
        have hb1 : n + 1 ≤ p.1 := hb.2.1 rfl
        refine ⟨?_, fun _ => by omega, hb.2.2.1, ?_, ?_⟩
        · intro u hu
          simp at hu
        · have := hb.2.2.2.1; omega
        · have := hb.2.2.2.2; simp only [List.length_cons]; omega
    | some s =>
      have hsn : s < n := hacc s rfl
      cases c with
      | true =>
        have hp2 : p ∈ runsAcc (n + 1) (some s) t := hp
        have hb := ih (n + 1) (some s) (fun u hu => by injection hu with h; omega) p hp2
        have hb1 : s ≤ p.1 := hb.1 s rfl
        refine ⟨?_, ?_, hb.2.2.1, ?_, ?_⟩
        · intro u hu
          injection hu with h
          omega
        · intro h
          simp at h
        · have := hb.2.2.2.1; omega
        · have := hb.2.2.2.2; simp only [List.length_cons]; omega
      | false =>
        have hp2 : p ∈ ((s, n) :: runsAcc (n + 1) none t) := hp
        rcases List.mem_cons.mp hp2 with hp0 | hp1
        · subst hp0
          refine ⟨?_, ?_, hsn, Nat.le_refl n, by simp⟩
          · intro u hu
            injection hu with h
            exact Nat.le_of_eq h.symm
          · intro h
            simp at h
        · have hb := ih (n + 1) none (fun u hu => by simp at hu) p hp1
          have hb1 : n + 1 ≤ p.1 := hb.2.1 rfl
          refine ⟨?_, ?_, hb.2.2.1, ?_, ?_⟩
          · intro u hu
            injection hu with h
            omega
          · intro h
            simp at h
          · have := hb.2.2.2.1; omega
          · have := hb.2.2.2.2; simp only [List.length_cons]; omega

theorem runsAcc_first :
    ∀ (l : List Bool) (n s : ℕ),
      ∃ e, (s, e) ∈ runsAcc n (some s) l ∧ n ≤ e := by
  intro l
  induction l with
  | nil => intro n s; exact ⟨n, by simp [runsAcc], Nat.le_refl n⟩
  | cons c t ih =>
    intro n s
    cases c with
    | true =>
      rcases ih (n + 1) s with ⟨e, he, hne⟩
      exact ⟨e, he, by omega⟩
    | false =>
      exact ⟨n, List.mem_cons_self _ _, Nat.le_refl n⟩

theorem runsAcc_pairwise :
    ∀ (l : List Bool) (n : ℕ) (acc : Option ℕ),
      (runsAcc n acc l).Pairwise (fun p q => p.2 < q.1) := by
  intro l
  induction l with
  | nil =>
    intro n acc
    cases acc with
    | none => simp [runsAcc]
    | some s => simp [runsAcc]
  | cons c t ih =>
    intro n acc
    cases acc with
    | none =>
      cases c with
      | true => exact ih (n + 1) (some n)
      | false => exact ih (n + 1) none
    | some s =>
      cases c with
      | true => exact ih (n + 1) (some s)
      | false =>
        refine List.Pairwise.cons ?_ (ih (n + 1) none)
        intro q hq
        have hb := runsAcc_bounds t (n + 1) none (fun u hu => by simp at hu) q hq
        have hq1 : n + 1 ≤ q.1 := hb.2.1 rfl
        show n < q.1
        omega

theorem runsAcc_covers :
    ∀ (l : List Bool) (n : ℕ) (acc : Option ℕ),
      (∀ s, acc = some s → s < n) →
      ∀ j, Covers (runsAcc n acc l) j ↔
        ((∃ s, acc = some s ∧ s ≤ j) ∧ j < n ∨
          (n ≤ j ∧ l.getD (j - n) false = true)) := by
  intro l
  induction l with
  | nil =>
    intro n acc hacc j
    cases acc with
    | none => simp [runsAcc, Covers]
    | some s =>
      simp only [runsAcc, Covers, List.mem_singleton, List.getD_nil]
      constructor
      · rintro ⟨p, hp, h1, h2⟩
        subst hp
        exact Or.inl ⟨⟨s, rfl, h1⟩, h2⟩
      · rintro (⟨⟨u, hu, h1⟩, h2⟩ | ⟨_, h⟩)
        · injection hu with h3
          subst h3
          exact ⟨(s, n), rfl, h1, h2⟩
        · exact absurd h (by simp)
  | cons c t ih =>
    intro n acc hacc j
    by_cases hnj : n ≤ j
    · have hget := getD_cons_sub c t false hnj
      have hlt : ¬ (j < n) := by omega
      cases acc with
      | none =>
        cases c with
        | true =>
          show Covers (runsAcc (n + 1) (some n) t) j ↔ _
          rw [ih (n + 1) (some n) (fun u hu => by injection hu with h; omega) j, hget]
          constructor
          · rintro (⟨⟨s, hs, h1⟩, h2⟩ | ⟨h1, h2⟩)
            · injection hs with h'
              have hj : j = n := by omega
              rw [if_pos hj]
              exact Or.inr ⟨hnj, rfl⟩
            · have hj : ¬(j = n) := by omega
              rw [if_neg hj]
              exact Or.inr ⟨hnj, h2⟩
          · rintro (⟨_, h2⟩ | ⟨_, h2⟩)
            · exact absurd h2 hlt
            · by_cases hj : j = n
              · exact Or.inl ⟨⟨n, rfl, by omega⟩, by omega⟩
              · rw [if_neg hj] at h2
                exact Or.inr ⟨by omega, h2⟩
        | false =>
          show Covers (runsAcc (n + 1) none t) j ↔ _
          rw [ih (n + 1) none (fun u hu => by simp at hu) j, hget]
          constructor
          · rintro (⟨⟨u, hu, _⟩, _⟩ | ⟨h1, h2⟩)
            · simp at hu
            · have hj : ¬(j = n) := by omega
              rw [if_neg hj]
              exact Or.inr ⟨hnj, h2⟩
          · rintro (⟨_, h2⟩ | ⟨_, h2⟩)
            · exact absurd h2 hlt
            · by_cases hj : j = n
              · rw [if_pos hj] at h2
                exact absurd h2 (by simp)
              · rw [if_neg hj] at h2
                exact Or.inr ⟨by omega, h2⟩
      | some s =>
        have hsn : s < n := hacc s rfl
        cases c with
        | true =>
          show Covers (runsAcc (n + 1) (some s) t) j ↔ _
          rw [ih (n + 1) (some s) (fun u hu => by injection hu with h; omega) j, hget]
          constructor
          · rintro (⟨⟨s', hs', h1⟩, h2⟩ | ⟨h1, h2⟩)
            · injection hs' with h'
              have hj : j = n := by omega
              rw [if_pos hj]
              exact Or.inr ⟨hnj, rfl⟩
            · have hj : ¬(j = n) := by omega
              rw [if_neg hj]
              exact Or.inr ⟨hnj, h2⟩
          · rintro (⟨_, h2⟩ | ⟨_, h2⟩)
            · exact absurd h2 hlt
            · by_cases hj : j = n
              · exact Or.inl ⟨⟨s, rfl, by omega⟩, by omega⟩
              · rw [if_neg hj] at h2
                exact Or.inr ⟨by omega, h2⟩
        | false =>
          show Covers ((s, n) :: runsAcc (n + 1) none t) j ↔ _
          have hsplit : Covers ((s, n) :: runsAcc (n + 1) none t) j ↔
              ((s ≤ j ∧ j < n) ∨ Covers (runsAcc (n + 1) none t) j) := by
            simp only [Covers, List.mem_cons]
            constructor
            · rintro ⟨p, hp | hp, h1, h2⟩
              · subst hp; exact Or.inl ⟨h1, h2⟩
              · exact Or.inr ⟨p, hp, h1, h2⟩
            · rintro (⟨h1, h2⟩ | ⟨p, hp, h1, h2⟩)
              · exact ⟨(s, n), Or.inl rfl, h1, h2⟩
              · exact ⟨p, Or.inr hp, h1, h2⟩
          rw [hsplit, ih (n + 1) none (fun u hu => by simp at hu) j, hget]
          constructor
          · rintro (⟨_, h2⟩ | ⟨⟨u, hu, _⟩, _⟩ | ⟨h1, h2⟩)
            · omega
            · simp at hu
            · have hj : ¬(j = n) := by omega
              rw [if_neg hj]
              exact Or.inr ⟨hnj, h2⟩
          · rintro (⟨_, h2⟩ | ⟨_, h2⟩)
            · exact absurd h2 hlt
            · by_cases hj : j = n
              · rw [if_pos hj] at h2
                exact absurd h2 (by simp)
              · rw [if_neg hj] at h2
                exact Or.inr (Or.inr ⟨by omega, h2⟩)
    · have hjn : j < n := by omega
      constructor
      · rintro ⟨p, hp, h1, h2⟩
        have hb := runsAcc_bounds (c :: t) n acc hacc p hp
        cases acc with
        | none =>
          have := hb.2.1 rfl
          omega
        | some s =>
          have := hb.1 s rfl
          exact Or.inl ⟨⟨s, rfl, by omega⟩, hjn⟩
      · rintro (⟨⟨s, hs, h1⟩, _⟩ | ⟨h1, _⟩)
        · subst hs
          rcases runsAcc_first (c :: t) n s with ⟨e, he, hne⟩
          exact ⟨(s, e), he, h1, by omega⟩
        · omega

theorem runsOf_pairwise (b : List Bool) :
    (runsOf b).Pairwise (fun p q => p.2 < q.1) :=
  runsAcc_pairwise b 0 none

theorem runsOf_bounds (b : List Bool) :
    ∀ p ∈ runsOf b, p.1 < p.2 ∧ p.2 ≤ b.length := by
  intro p hp
  have hb := runsAcc_bounds b 0 none (fun u hu => by simp at hu) p hp
  refine ⟨hb.2.2.1, ?_⟩
  have := hb.2.2.2.2
  omega

theorem runsOf_covers (b : List Bool) (j : ℕ) :
    Covers (runsOf b) j ↔ b.getD j false = true := by
  have h := runsAcc_covers b 0 none (fun u hu => by simp at hu) j
  simp only [runsOf] at h ⊢
  rw [h]
  constructor
  · rintro (⟨⟨u, hu, _⟩, _⟩ | ⟨_, h2⟩)
    · simp at hu
    · simpa using h2
  · intro hb
    exact Or.inr ⟨Nat.zero_le j, by simpa using hb⟩

end NILM

namespace NILM

/-! ## Event extraction: `eventIdxs` as an edge filter -/

theorem getD_default_of_le {α : Type} (l : List α) (d : α) {j : ℕ}
    (h : l.length ≤ j) : l.getD j d = d := by
  simp [List.getD_eq_getElem?_getD, List.getElem?_eq_none h]

theorem eventIdxs_eq_filter (b : List Bool) :
    eventIdxs b = (List.range (b.length + 1)).filter (isEdge b) := by
  cases b with
  | nil => rfl
  | cons c0 t0 =>
    have hend : (c0 :: t0).getD (t0.length + 1) false = false :=
      getD_default_of_le _ _ (by simp)
    have h0 : isEdge (c0 :: t0) 0 = (c0 :: t0).getD 0 false := by
      rw [isEdge, if_pos rfl]
    have hqm : isEdge (c0 :: t0) (t0.length + 1) = (c0 :: t0).getD t0.length false := by
      rw [isEdge, if_neg (Nat.succ_ne_zero t0.length)]
      have h2 : t0.length + 1 - 1 = t0.length := rfl
      rw [h2, hend]
      cases h : (c0 :: t0).getD t0.length false <;> rfl
    have r1 : List.range ((c0 :: t0).length + 1) =
        0 :: (List.range (t0.length + 1)).map Nat.succ :=
      List.range_succ_eq_map (t0.length + 1)
    rw [r1, List.filter_cons, List.filter_map, List.range_succ,
      List.filter_append, List.map_append]
    have hq1 : List.filter (isEdge (c0 :: t0) ∘ Nat.succ) [t0.length] =
        if (c0 :: t0).getD t0.length false then [t0.length] else [] := by
      have hc : (isEdge (c0 :: t0) ∘ Nat.succ) t0.length =
          (c0 :: t0).getD t0.length false := hqm
      simp only [List.filter_cons, List.filter_nil, hc]
    rw [hq1]
    have hq2 : List.map Nat.succ
        (if (c0 :: t0).getD t0.length false then [t0.length] else []) =
        (if (c0 :: t0).getD t0.length false then [(c0 :: t0).length] else []) := by
      cases h : (c0 :: t0).getD t0.length false <;> rfl
    rw [hq2]
    have hq3 : List.filter (isEdge (c0 :: t0) ∘ Nat.succ) (List.range t0.length) =
        List.filter
          (fun i => decide ((c0 :: t0).getD i false ≠ (c0 :: t0).getD (i + 1) false))
          (List.range t0.length) := by
      refine List.filter_congr ?_
      intro i _
      show isEdge (c0 :: t0) (i + 1) = _
      rw [isEdge, if_neg (Nat.succ_ne_zero i)]
      have h2 : i + 1 - 1 = i := rfl
      rw [h2]
    rw [hq3]
    rw [eventIdxs, transitionIdxs]
    have hlen1 : (c0 :: t0).length - 1 = t0.length := rfl
    rw [hlen1]
    have hmap : ∀ l : List ℕ, l.map Nat.succ = l.map (· + 1) := fun l => rfl
    rw [hmap]
    rw [h0]
    cases hc : (c0 :: t0).getD 0 false <;> simp [List.append_assoc]

theorem pairEvents_chunk :
    ∀ ps : List (ℕ × ℕ), chunkPairs (pairEvents ps) = some ps := by
  intro ps
  induction ps with
  | nil => rfl
  | cons p t ih => simp [pairEvents, chunkPairs, ih]

theorem mem_pairEvents {j : ℕ} :
    ∀ {ps : List (ℕ × ℕ)},
      j ∈ pairEvents ps ↔ ∃ p ∈ ps, j = p.1 ∨ j = p.2 := by
  intro ps
  induction ps with
  | nil => simp [pairEvents]
  | cons p t ih =>
    simp only [pairEvents, List.mem_cons, ih]
    constructor
    · rintro (h | h | ⟨q, hq, hj⟩)
      · exact ⟨p, Or.inl rfl, Or.inl h⟩
      · exact ⟨p, Or.inl rfl, Or.inr h⟩
      · exact ⟨q, Or.inr hq, hj⟩
    · rintro ⟨q, hq | hq, hj⟩
      · subst hq
        rcases hj with h | h
        · exact Or.inl h
        · exact Or.inr (Or.inl h)
      · exact Or.inr (Or.inr ⟨q, hq, hj⟩)

theorem pairEvents_sorted {ps : List (ℕ × ℕ)}
    (hpw : ps.Pairwise (fun p q => p.2 < q.1))
    (hup : ∀ p ∈ ps, p.1 < p.2) :
    (pairEvents ps).Pairwise (· < ·) := by
  induction ps with
  | nil => exact List.Pairwise.nil
  | cons p t ih =>
    have hpt := List.pairwise_cons.mp hpw
    have hup1 := hup p (List.mem_cons_self p t)
    refine List.Pairwise.cons ?_ (List.Pairwise.cons ?_ (ih hpt.2
      (fun q hq => hup q (List.mem_cons_of_mem p hq))))
    · intro j hj
      rcases List.mem_cons.mp hj with hj | hj
      · omega
      · rcases mem_pairEvents.mp hj with ⟨q, hq, hjq⟩
        have h1 := hpt.1 q hq
        have h2 := hup q (List.mem_cons_of_mem p hq)
        rcases hjq with h | h <;> omega
    · intro j hj
      rcases mem_pairEvents.mp hj with ⟨q, hq, hjq⟩
      have h1 := hpt.1 q hq
      have h2 := hup q (List.mem_cons_of_mem p hq)
      rcases hjq with h | h <;> omega

end NILM

namespace NILM

/-- The edge positions of a boolean list that is covered exactly by a
separated, upright, in-bounds pair list are precisely the pair endpoints. -/
theorem eventIdxs_eq_pairEvents {ps : List (ℕ × ℕ)} {b : List Bool}
    (hpw : ps.Pairwise (fun p q => p.2 < q.1))
    (hup : ∀ p ∈ ps, p.1 < p.2)
    (hbd : ∀ p ∈ ps, p.2 ≤ b.length)
    (hcov : ∀ j, b.getD j false = true ↔ Covers ps j) :
    eventIdxs b = pairEvents ps := by
  have horder : ∀ p ∈ ps, ∀ q ∈ ps, p ≠ q → p.2 < q.1 ∨ q.2 < p.1 := by
    have hsym : Symmetric (fun p q : ℕ × ℕ => p.2 < q.1 ∨ q.2 < p.1) := by
      intro p q h
      exact h.symm
    intro p hp q hq hne
    exact (hpw.imp (fun h => Or.inl h)).forall hsym hp hq hne
  have hcovF : ∀ j, b.getD j false = false ↔ ¬ Covers ps j := by
    intro j
    rw [← hcov j]
    cases b.getD j false <;> simp
  have hedge : ∀ j, isEdge b j = true ↔ ∃ p ∈ ps, j = p.1 ∨ j = p.2 := by
    intro j
    by_cases hj0 : j = 0
    · subst hj0
      rw [isEdge, if_pos rfl, hcov 0]
      constructor
      · rintro ⟨p, hp, h1, h2⟩
        exact ⟨p, hp, Or.inl (by omega)⟩
      · rintro ⟨p, hp, h | h⟩
        · exact ⟨p, hp, by omega, by have := hup p hp; omega⟩
        · have := hup p hp
          omega
    · rw [isEdge, if_neg hj0]
      have h1j : 1 ≤ j := by omega
      rw [decide_eq_true_iff]
      constructor
      · intro hne
        by_cases hcj : Covers ps j
        · have hbj : b.getD j false = true := (hcov j).mpr hcj
          have hbjm : b.getD (j - 1) false = false := by
            cases h : b.getD (j - 1) false
            · rfl
            · exact absurd (h.trans hbj.symm) hne
          have hcjm : ¬ Covers ps (j - 1) := (hcovF (j - 1)).mp hbjm
          rcases hcj with ⟨p, hp, hp1, hp2⟩
          have hpj : p.1 = j := by
            by_contra hne2
            exact hcjm ⟨p, hp, by omega, by omega⟩
          exact ⟨p, hp, Or.inl hpj.symm⟩
        · have hbj : b.getD j false = false := by
            cases h : b.getD j false
            · rfl
            · exact absurd ((hcov j).mp h) hcj
          have hbjm : b.getD (j - 1) false = true := by
            cases h : b.getD (j - 1) false
            · exact absurd (h.trans hbj.symm) hne
            · rfl
          have hcjm : Covers ps (j - 1) := (hcov (j - 1)).mp hbjm
          rcases hcjm with ⟨p, hp, hp1, hp2⟩
          have hpj : p.2 = j := by
            by_contra hne2
            exact hcj ⟨p, hp, by omega, by omega⟩
          exact ⟨p, hp, Or.inr hpj.symm⟩
      · rintro ⟨p, hp, h | h⟩
        · subst h
          have hupp := hup p hp
          have hcj : Covers ps p.1 := ⟨p, hp, Nat.le_refl _, hupp⟩
          have hcjm : ¬ Covers ps (p.1 - 1) := by
            rintro ⟨q, hq, hq1, hq2⟩
            by_cases hpq : p = q
            · subst hpq
              omega
            · rcases horder p hp q hq hpq with h | h <;> omega
          rw [(hcov _).mpr hcj, (hcovF _).mpr hcjm]
          simp
        · subst h
          have hupp := hup p hp
          have hcjm : Covers ps (p.2 - 1) := ⟨p, hp, by omega, by omega⟩
          have hcj : ¬ Covers ps p.2 := by
            rintro ⟨q, hq, hq1, hq2⟩
            by_cases hpq : p = q
            · subst hpq
              omega
            · rcases horder p hp q hq hpq with h | h <;> omega
          rw [(hcov _).mpr hcjm, (hcovF _).mpr hcj]
          simp
  rw [eventIdxs_eq_filter]
  have hsort1 : (List.range (b.length + 1)).filter (isEdge b)
      |>.Pairwise (· < ·) :=
    (List.sorted_lt_range (b.length + 1)).filter (isEdge b)
  have hsort2 : (pairEvents ps).Pairwise (· < ·) := pairEvents_sorted hpw hup
  have hnd1 : ((List.range (b.length + 1)).filter (isEdge b)).Nodup :=
    hsort1.imp (fun h => Nat.ne_of_lt h)
  have hnd2 : (pairEvents ps).Nodup := hsort2.imp (fun h => Nat.ne_of_lt h)
  have hmem : ∀ j, j ∈ (List.range (b.length + 1)).filter (isEdge b) ↔
      j ∈ pairEvents ps := by
    intro j
    rw [List.mem_filter, List.mem_range, mem_pairEvents, ← hedge j]
    constructor
    · rintro ⟨_, h⟩
      exact h
    · intro h
      refine ⟨?_, h⟩
      rcases (hedge j).mp h with ⟨p, hp, hj | hj⟩ <;>
        have h1 := hup p hp <;> have h2 := hbd p hp <;> omega
  have hperm := (List.perm_ext_iff_of_nodup hnd1 hnd2).mpr hmem
  exact List.eq_of_perm_of_sorted hperm
    (List.Pairwise.imp (fun h => Nat.le_of_lt h) hsort1)
    (List.Pairwise.imp (fun h => Nat.le_of_lt h) hsort2)

end NILM

namespace NILM

/-! ## The off-duration filter as a run merge -/

theorem gapsFrom_zipWith :
    ∀ (rest : List (ℕ × ℕ)) (b : ℕ),
      List.zipWith (fun (x y : ℕ) => (x : ℤ) - (y : ℤ)) (rest.map Prod.fst)
        ((b :: rest.map Prod.snd).dropLast) = gapsFrom b rest := by
  intro rest
  induction rest with
  | nil => intro b; rfl
  | cons q t ih =>
    intro b
    have hd : (b :: q.2 :: t.map Prod.snd).dropLast =
        b :: (q.2 :: t.map Prod.snd).dropLast := rfl
    simp only [List.map_cons, hd, List.zipWith_cons_cons, gapsFrom]
    rw [ih q.2]

theorem offDurations_cons (a b : ℕ) (rest : List (ℕ × ℕ)) :
    offDurations (((a, b) :: rest).map Prod.fst)
      (((a, b) :: rest).map Prod.snd) = (1000 : ℤ) :: gapsFrom b rest := by
  simp only [offDurations, List.map_cons, List.tail_cons]
  rw [gapsFrom_zipWith rest b]

theorem offFilterOns_cons {minOff : ℤ} (hlt : minOff < 1000) (a b : ℕ)
    (rest : List (ℕ × ℕ)) :
    offFilterOns minOff ((a, b) :: rest) =
      a :: maskFilter (rest.map Prod.fst)
        ((gapsFrom b rest).map (fun g => decide (minOff < g))) := by
  rw [offFilterOns, offDurations_cons]
  simp only [List.map_cons, List.map_cons, maskFilter_cons,
    decide_eq_true_eq, if_pos hlt]

theorem offFilterOffs_cons {minOff : ℤ} (hlt : minOff < 1000) (a b : ℕ)
    (rest : List (ℕ × ℕ)) :
    offFilterOffs minOff ((a, b) :: rest) =
      maskFilter (b :: rest.map Prod.snd)
        (((gapsFrom b rest).map (fun g => decide (minOff < g))) ++ [true]) := by
  rw [offFilterOffs, offDurations_cons]
  have hroll : roll1 ((1000 : ℤ) :: gapsFrom b rest) =
      gapsFrom b rest ++ [(1000 : ℤ)] := rfl
  rw [hroll, List.map_append]
  simp only [List.map_cons, List.map_nil, List.map_cons]
  have : decide (minOff < (1000 : ℤ)) = true := decide_eq_true hlt
  rw [this]

theorem zip_mask_merge (minOff : ℤ) :
    ∀ (rest : List (ℕ × ℕ)) (a b : ℕ),
      (a :: maskFilter (rest.map Prod.fst)
          ((gapsFrom b rest).map (fun g => decide (minOff < g)))).zip
        (maskFilter (b :: rest.map Prod.snd)
          (((gapsFrom b rest).map (fun g => decide (minOff < g))) ++ [true])) =
      mergeGo minOff a b rest := by
  intro rest
  induction rest with
  | nil =>
    intro a b
    rfl
  | cons q t ih =>
    intro a b
    simp only [gapsFrom, List.map_cons, maskFilter_cons, List.cons_append]
    by_cases hd : minOff < (q.1 : ℤ) - b
    · have hdec : decide (minOff < (q.1 : ℤ) - (b : ℤ)) = true := decide_eq_true hd
      rw [hdec]
      simp only [if_true]
      rw [show mergeGo minOff a b (q :: t) =
        (a, b) :: mergeGo minOff q.1 q.2 t by rw [mergeGo, if_pos hd]]
      rw [← ih q.1 q.2]
      rfl
    · have hdec : decide (minOff < (q.1 : ℤ) - (b : ℤ)) = false :=
        decide_eq_false hd
      rw [hdec]
      simp only [Bool.false_eq_true, if_false]
      rw [show mergeGo minOff a b (q :: t) = mergeGo minOff a q.2 t by
        rw [mergeGo, if_neg hd]]
      rw [← ih a q.2]

theorem mergeGo_ne_nil (minOff : ℤ) :
    ∀ (rest : List (ℕ × ℕ)) (a b : ℕ), mergeGo minOff a b rest ≠ [] := by
  intro rest
  induction rest with
  | nil => intro a b; simp [mergeGo]
  | cons q t ih =>
    intro a b
    rw [mergeGo]
    by_cases hd : minOff < (q.1 : ℤ) - b
    · rw [if_pos hd]; simp
    · rw [if_neg hd]; exact ih a q.2

theorem mergeGo_head (minOff : ℤ) :
    ∀ (rest : List (ℕ × ℕ)) (a b : ℕ),
      ∃ y tl, mergeGo minOff a b rest = (a, y) :: tl := by
  intro rest
  induction rest with
  | nil => intro a b; exact ⟨b, [], rfl⟩
  | cons q t ih =>
    intro a b
    rw [mergeGo]
    by_cases hd : minOff < (q.1 : ℤ) - b
    · rw [if_pos hd]
      exact ⟨b, mergeGo minOff q.1 q.2 t, rfl⟩
    · rw [if_neg hd]
      exact ih a q.2

theorem mergeGo_mem (minOff : ℤ) :
    ∀ (rest : List (ℕ × ℕ)) (a b : ℕ) (p : ℕ × ℕ),
      p ∈ mergeGo minOff a b rest →
        p.1 ∈ a :: rest.map Prod.fst ∧ p.2 ∈ b :: rest.map Prod.snd := by
  intro rest
  induction rest with
  | nil =>
    intro a b p hp
    rw [mergeGo, List.mem_singleton] at hp
    subst hp
    simp
  | cons q t ih =>
    intro a b p hp
    rw [mergeGo] at hp
    simp only [List.map_cons]
    by_cases hd : minOff < (q.1 : ℤ) - b
    · rw [if_pos hd] at hp
      rcases List.mem_cons.mp hp with hp0 | hp1
      · subst hp0
        simp
      · have h12 := ih q.1 q.2 p hp1
        exact ⟨List.mem_cons_of_mem a h12.1, List.mem_cons_of_mem b h12.2⟩
    · rw [if_neg hd] at hp
      have h12 := ih a q.2 p hp
      constructor
      · rcases List.mem_cons.mp h12.1 with h | h
        · exact List.mem_cons.mpr (Or.inl h)
        · exact List.mem_cons_of_mem a (List.mem_cons_of_mem q.1 h)
      · exact List.mem_cons_of_mem b h12.2

theorem mergeGo_upright (minOff : ℤ) :
    ∀ (rest : List (ℕ × ℕ)) (a b : ℕ), a < b → EventsChain b rest →
      ∀ p ∈ mergeGo minOff a b rest, p.1 < p.2 := by
  intro rest
  induction rest with
  | nil =>
    intro a b hab _ p hp
    rw [mergeGo, List.mem_singleton] at hp
    subst hp
    exact hab
  | cons q t ih =>
    intro a b hab hch p hp
    rcases hch with ⟨h1, h2, h3⟩
    rw [mergeGo] at hp
    by_cases hd : minOff < (q.1 : ℤ) - b
    · rw [if_pos hd] at hp
      rcases List.mem_cons.mp hp with hp0 | hp1
      · subst hp0
        exact hab
      · exact ih q.1 q.2 h2 h3 p hp1
    · rw [if_neg hd] at hp
      exact ih a q.2 (by omega) h3 p hp

theorem mergeGo_chain (minOff : ℤ) :
    ∀ (rest : List (ℕ × ℕ)) (a b : ℕ), a < b → EventsChain b rest →
      List.Chain' (PairR minOff) (mergeGo minOff a b rest) := by
  intro rest
  induction rest with
  | nil =>
    intro a b _ _
    rw [mergeGo]
    exact List.chain'_singleton _
  | cons q t ih =>
    intro a b hab hch
    rcases hch with ⟨h1, h2, h3⟩
    rw [mergeGo]
    by_cases hd : minOff < (q.1 : ℤ) - b
    · rw [if_pos hd]
      rcases mergeGo_head minOff t q.1 q.2 with ⟨y, tl, heq⟩
      rw [heq]
      have hy : (q.1, y).1 < (q.1, y).2 := by
        refine mergeGo_upright minOff t q.1 q.2 h2 h3 (q.1, y) ?_
        rw [heq]
        exact List.mem_cons_self _ _
      refine List.Chain'.cons ?_ ?_
      · exact ⟨hab, hy, h1, hd⟩
      · rw [← heq]
        exact ih q.1 q.2 h2 h3
    · rw [if_neg hd]
      exact ih a q.2 (by omega) h3

theorem mergeGo_last (minOff : ℤ) :
    ∀ (rest : List (ℕ × ℕ)) (a b : ℕ),
      (mergeGo minOff a b rest).getLast?.map Prod.snd =
        some (lastSnd b rest) := by
  intro rest
  induction rest with
  | nil => intro a b; rfl
  | cons q t ih =>
    intro a b
    rw [mergeGo, lastSnd]
    by_cases hd : minOff < (q.1 : ℤ) - b
    · rw [if_pos hd]
      rcases mergeGo_head minOff t q.1 q.2 with ⟨y, tl, heq⟩
      rw [heq, List.getLast?_cons_cons, ← heq]
      exact ih q.1 q.2
    · rw [if_neg hd]
      exact ih a q.2

end NILM

namespace NILM

/-! ## Computing `labelPairs` -/

theorem labelPairs_cons (minOn minOff : ℤ) (p0 : ℕ × ℕ)
    (rest : List (ℕ × ℕ)) :
    labelPairs minOn minOff (p0 :: rest) =
      (if (offFilterOns minOff (p0 :: rest)).length =
          (offFilterOffs minOff (p0 :: rest)).length then
        some ((maskFilter (offFilterOns minOff (p0 :: rest))
            ((List.zipWith (fun (o a : ℕ) => (o : ℤ) - (a : ℤ))
              (offFilterOffs minOff (p0 :: rest))
              (offFilterOns minOff (p0 :: rest))).map
                (fun d => decide (minOn ≤ d)))).zip
          (maskFilter (offFilterOffs minOff (p0 :: rest))
            ((List.zipWith (fun (o a : ℕ) => (o : ℤ) - (a : ℤ))
              (offFilterOffs minOff (p0 :: rest))
              (offFilterOns minOff (p0 :: rest))).map
                (fun d => decide (minOn ≤ d)))))
       else none) := rfl

theorem gapsFrom_length :
    ∀ (rest : List (ℕ × ℕ)) (b : ℕ), (gapsFrom b rest).length = rest.length := by
  intro rest
  induction rest with
  | nil => intro b; rfl
  | cons q t ih => intro b; simp [gapsFrom, ih q.2]

theorem roll1_map {α β : Type} (f : α → β) (l : List α) :
    (roll1 l).map f = roll1 (l.map f) := by
  cases l <;> simp [roll1]

theorem roll1_length {α : Type} (l : List α) : (roll1 l).length = l.length := by
  cases l <;> simp [roll1]

theorem offDurations_length (p0 : ℕ × ℕ) (rest : List (ℕ × ℕ)) :
    (offDurations ((p0 :: rest).map Prod.fst)
      ((p0 :: rest).map Prod.snd)).length = rest.length + 1 := by
  simp [offDurations, List.length_zipWith, List.length_dropLast]

theorem maskFilter_length_count_le {α : Type} :
    ∀ (l : List α) (ms : List Bool), ms.length ≤ l.length →
      (maskFilter l ms).length = (ms.filter (fun m => m)).length := by
  intro l
  induction l with
  | nil =>
    intro ms h
    cases ms with
    | nil => rfl
    | cons m ms => simp at h
  | cons x xs ih =>
    intro ms h
    cases ms with
    | nil => simp
    | cons m ms =>
      simp only [List.length_cons, Nat.succ_le_succ_iff] at h
      cases m <;> simp [maskFilter_cons, List.filter_cons, ih ms h]

theorem offFilter_length_eq (minOff : ℤ) (p0 : ℕ × ℕ)
    (rest : List (ℕ × ℕ)) :
    (offFilterOns minOff (p0 :: rest)).length =
      (offFilterOffs minOff (p0 :: rest)).length := by
  rw [offFilterOns, offFilterOffs]
  have hlon : ((p0 :: rest).map Prod.fst).length = rest.length + 1 := by simp
  have hloff : ((p0 :: rest).map Prod.snd).length = rest.length + 1 := by simp
  have hld : (offDurations (p0.1 :: rest.map Prod.fst)
      (p0.2 :: rest.map Prod.snd)).length = rest.length + 1 := by
    simpa using offDurations_length p0 rest
  rw [maskFilter_length_count _ _ (by simp [hld]),
    maskFilter_length_count _ _ (by simp [roll1_length, hld])]
  rw [roll1_map]
  rw [roll1_filter_length]

theorem labelPairs_eq_merge {minOn minOff : ℤ} (hlt : minOff < 1000)
    (a b : ℕ) (rest : List (ℕ × ℕ)) :
    labelPairs minOn minOff ((a, b) :: rest) =
      some ((mergeGo minOff a b rest).filter
        (fun p => decide (minOn ≤ (p.2 : ℤ) - (p.1 : ℤ)))) := by
  rw [labelPairs_cons, if_pos (offFilter_length_eq minOff (a, b) rest)]
  have hlen := offFilter_length_eq minOff (a, b) rest
  have hzip : (offFilterOns minOff ((a, b) :: rest)).zip
      (offFilterOffs minOff ((a, b) :: rest)) = mergeGo minOff a b rest := by
    rw [offFilterOns_cons hlt, offFilterOffs_cons hlt]
    exact zip_mask_merge minOff rest a b
  have hdur : List.zipWith (fun (o a : ℕ) => (o : ℤ) - (a : ℤ))
      (offFilterOffs minOff ((a, b) :: rest))
      (offFilterOns minOff ((a, b) :: rest)) =
      ((offFilterOns minOff ((a, b) :: rest)).zip
        (offFilterOffs minOff ((a, b) :: rest))).map
          (fun p => (p.2 : ℤ) - (p.1 : ℤ)) := by
    exact zipWith_eq_map_zip _ _ _
  rw [hdur, List.map_map]
  rw [maskFilter_zip _ _ _
    (by simp only [List.length_map, List.length_zip]; omega)
    (le_of_eq hlen)]
  rw [maskFilter_map_self]
  rw [hzip]
  rfl

theorem chain_zip_inverted :
    ∀ (rest : List (ℕ × ℕ)) (b : ℕ), EventsChain b rest →
      ∀ x ∈ (rest.map Prod.fst).zip (b :: rest.map Prod.snd), x.2 < x.1 := by
  intro rest
  induction rest with
  | nil => intro b _ x hx; simp at hx
  | cons q t ih =>
    intro b hch x hx
    rcases hch with ⟨h1, h2, h3⟩
    simp only [List.map_cons, List.zip_cons_cons] at hx
    rcases List.mem_cons.mp hx with hx0 | hx1
    · subst hx0
      exact h1
    · exact ih q.2 h3 x hx1

theorem offFilterOns_cons_ge {minOff : ℤ} (hge : ¬ minOff < 1000)
    (a b : ℕ) (rest : List (ℕ × ℕ)) :
    offFilterOns minOff ((a, b) :: rest) =
      maskFilter (rest.map Prod.fst)
        ((gapsFrom b rest).map (fun g => decide (minOff < g))) := by
  rw [offFilterOns, offDurations_cons]
  simp only [List.map_cons, maskFilter_cons]
  rw [if_neg (by simpa using hge)]

theorem offFilterOffs_cons_ge {minOff : ℤ} (hge : ¬ minOff < 1000)
    (a b : ℕ) (rest : List (ℕ × ℕ)) :
    offFilterOffs minOff ((a, b) :: rest) =
      maskFilter (b :: rest.map Prod.snd)
        ((gapsFrom b rest).map (fun g => decide (minOff < g))) := by
  rw [offFilterOffs, offDurations_cons]
  have hroll : roll1 ((1000 : ℤ) :: gapsFrom b rest) =
      gapsFrom b rest ++ [(1000 : ℤ)] := rfl
  rw [hroll, List.map_append]
  simp only [List.map_cons, List.map_nil]
  have hd : decide (minOff < (1000 : ℤ)) = false := decide_eq_false hge
  rw [hd]
  refine maskFilter_append_false _ _ ?_
  simp [gapsFrom_length]

theorem labelPairs_ge_inverted {minOn minOff : ℤ} (hge : ¬ minOff < 1000)
    (a b : ℕ) (rest : List (ℕ × ℕ)) (hch : EventsChain b rest) :
    ∃ fps, labelPairs minOn minOff ((a, b) :: rest) = some fps ∧
      ∀ p ∈ fps, p.2 < p.1 := by
  rw [labelPairs_cons, if_pos (offFilter_length_eq minOff (a, b) rest)]
  refine ⟨_, rfl, ?_⟩
  intro p hp
  have hlen := offFilter_length_eq minOff (a, b) rest
  set gm := (gapsFrom b rest).map (fun g => decide (minOff < g)) with hgm
  have hgml : gm.length = rest.length := by simp [hgm, gapsFrom_length]
  have hons : offFilterOns minOff ((a, b) :: rest) =
      maskFilter (rest.map Prod.fst) gm := offFilterOns_cons_ge hge a b rest
  have hoffs : offFilterOffs minOff ((a, b) :: rest) =
      maskFilter (b :: rest.map Prod.snd) gm := offFilterOffs_cons_ge hge a b rest
  have hdur : List.zipWith (fun (o a : ℕ) => (o : ℤ) - (a : ℤ))
      (offFilterOffs minOff ((a, b) :: rest))
      (offFilterOns minOff ((a, b) :: rest)) =
      ((offFilterOns minOff ((a, b) :: rest)).zip
        (offFilterOffs minOff ((a, b) :: rest))).map
          (fun p => (p.2 : ℤ) - (p.1 : ℤ)) := zipWith_eq_map_zip _ _ _
  rw [hdur, List.map_map, maskFilter_zip _ _ _
    (by simp only [List.length_map, List.length_zip]; omega)
    (le_of_eq hlen), maskFilter_map_self] at hp
  have hp2 := List.mem_of_mem_filter hp
  rw [hons, hoffs] at hp2
  rw [maskFilter_zip _ _ _
    (by simp only [List.length_map, hgml])
    (by simp only [List.length_map, List.length_cons]; omega)] at hp2
  have hp3 := mem_of_mem_maskFilter hp2
  exact chain_zip_inverted rest b hch p hp3

theorem eventsChain_of {p0 : ℕ × ℕ} {rest : List (ℕ × ℕ)}
    (hpw : (p0 :: rest).Pairwise (fun p q => p.2 < q.1))
    (hup : ∀ q ∈ p0 :: rest, q.1 < q.2) :
    EventsChain p0.2 rest := by
  induction rest generalizing p0 with
  | nil => trivial
  | cons q t ih =>
    have h1 := (List.pairwise_cons.mp hpw).1 q (List.mem_cons_self q t)
    have h2 := hup q (List.mem_cons_of_mem p0 (List.mem_cons_self q t))
    refine ⟨h1, h2, ih (List.pairwise_cons.mp hpw).2 ?_⟩
    intro r hr
    exact hup r (List.mem_cons_of_mem p0 hr)

end NILM

namespace NILM

/-! ## Characterizing `buildStatus` -/

theorem setRunFrom_length :
    ∀ (s : List ℕ) (pos a b : ℕ), (setRunFrom pos a b s).length = s.length := by
  intro s
  induction s with
  | nil => intro pos a b; rfl
  | cons v t ih => intro pos a b; simp [setRunFrom, ih]

theorem setRunFrom_getD :
    ∀ (s : List ℕ) (pos a b i : ℕ),
      (setRunFrom pos a b s).getD i 0 =
        if a ≤ pos + i ∧ pos + i < b ∧ i < s.length then 1
        else s.getD i 0 := by
  intro s
  induction s with
  | nil =>
    intro pos a b i
    simp [setRunFrom]
  | cons v t ih =>
    intro pos a b i
    cases i with
    | zero =>
      simp only [setRunFrom, List.getD_cons_zero]
      by_cases h : a ≤ pos ∧ pos < b
      · rw [if_pos h, if_pos (by simp; omega)]
      · rw [if_neg h, if_neg (by simp; omega)]
    | succ i =>
      simp only [setRunFrom, List.getD_cons_succ]
      rw [ih (pos + 1) a b i]
      by_cases h : a ≤ pos + 1 + i ∧ pos + 1 + i < b ∧ i < t.length
      · rw [if_pos h, if_pos (by simp; omega)]
      · rw [if_neg h, if_neg (by simp; omega)]

theorem foldl_setRun_length :
    ∀ (ps : List (ℕ × ℕ)) (s : List ℕ),
      (ps.foldl (fun s p => setRun s p.1 p.2) s).length = s.length := by
  intro ps
  induction ps with
  | nil => intro s; rfl
  | cons p t ih =>
    intro s
    rw [List.foldl_cons, ih, setRun, setRunFrom_length]

theorem buildStatus_length (n : ℕ) (ps : List (ℕ × ℕ)) :
    (buildStatus n ps).length = n := by
  rw [buildStatus, foldl_setRun_length, List.length_replicate]

theorem foldl_setRun_getD :
    ∀ (ps : List (ℕ × ℕ)) (s : List ℕ) (i : ℕ),
      (ps.foldl (fun s p => setRun s p.1 p.2) s).getD i 0 =
        if i < s.length ∧ Covers ps i then 1 else s.getD i 0 := by
  intro ps
  induction ps with
  | nil =>
    intro s i
    have : ¬ Covers ([] : List (ℕ × ℕ)) i := by
      rintro ⟨p, hp, _⟩
      simp at hp
    rw [if_neg (by tauto)]
    rfl
  | cons p t ih =>
    intro s i
    rw [List.foldl_cons, ih, setRun, setRunFrom_length, setRunFrom_getD]
    simp only [Nat.zero_add]
    have hcov : Covers (p :: t) i ↔ (p.1 ≤ i ∧ i < p.2) ∨ Covers t i := by
      simp only [Covers, List.mem_cons]
      constructor
      · rintro ⟨q, hq | hq, h1, h2⟩
        · subst hq; exact Or.inl ⟨h1, h2⟩
        · exact Or.inr ⟨q, hq, h1, h2⟩
      · rintro (⟨h1, h2⟩ | ⟨q, hq, h1, h2⟩)
        · exact ⟨p, Or.inl rfl, h1, h2⟩
        · exact ⟨q, Or.inr hq, h1, h2⟩
    by_cases h1 : i < s.length
    · by_cases h2 : Covers t i
      · rw [if_pos ⟨h1, h2⟩, if_pos ⟨h1, hcov.mpr (Or.inr h2)⟩]
      · rw [if_neg (by tauto)]
        by_cases h3 : p.1 ≤ i ∧ i < p.2
        · rw [if_pos ⟨h3.1, h3.2, h1⟩, if_pos ⟨h1, hcov.mpr (Or.inl h3)⟩]
        · rw [if_neg (by tauto), if_neg (by rw [hcov]; tauto)]
    · rw [if_neg (by tauto), if_neg (by tauto)]
      by_cases h3 : p.1 ≤ i ∧ i < p.2
      · rw [if_neg (by tauto)]
      · rw [if_neg (by tauto)]

theorem getD_replicate_zero (n i : ℕ) :
    (List.replicate n (0 : ℕ)).getD i 0 = 0 := by
  by_cases h : i < n
  · rw [List.getD_eq_getElem?_getD, List.getElem?_eq_getElem (by simpa using h)]
    simp [List.getElem_replicate]
  · rw [getD_default_of_le]
    simpa using by omega

theorem buildStatus_getD (n : ℕ) (ps : List (ℕ × ℕ)) (i : ℕ) :
    (buildStatus n ps).getD i 0 =
      if i < n ∧ Covers ps i then 1 else 0 := by
  rw [buildStatus, foldl_setRun_getD, List.length_replicate, getD_replicate_zero]

/-! ## Pairwise separation of the merged pairs -/

theorem pairR_trans (minOff : ℤ) : Transitive (PairR minOff) := by
  rintro p q r ⟨h1, h2, h3, h4⟩ ⟨h5, h6, h7, h8⟩
  exact ⟨h1, h6, by omega, by omega⟩

theorem chain'_pairR_pairwise {minOff : ℤ} {l : List (ℕ × ℕ)}
    (hc : List.Chain' (PairR minOff) l) : l.Pairwise (PairR minOff) := by
  haveI : IsTrans (ℕ × ℕ) (PairR minOff) :=
    ⟨fun a b c hab hbc => pairR_trans minOff hab hbc⟩
  exact List.chain'_iff_pairwise.mp hc

theorem pairR_order {minOff : ℤ} {fps : List (ℕ × ℕ)}
    (hpw : fps.Pairwise (PairR minOff)) :
    ∀ p ∈ fps, ∀ q ∈ fps, p ≠ q →
      PairR minOff p q ∨ PairR minOff q p := by
  have hsym : Symmetric
      (fun p q : ℕ × ℕ => PairR minOff p q ∨ PairR minOff q p) := by
    intro p q h
    exact h.symm
  intro p hp q hq hne
  exact (hpw.imp (fun h => Or.inl h)).forall hsym hp hq hne

theorem mergePairs_props (minOff : ℤ) {ps : List (ℕ × ℕ)}
    (hpw : ps.Pairwise (fun p q => p.2 < q.1))
    (hup : ∀ p ∈ ps, p.1 < p.2) :
    (mergePairs minOff ps).Pairwise (PairR minOff) ∧
      (∀ p ∈ mergePairs minOff ps, p.1 < p.2) ∧
      (∀ p ∈ mergePairs minOff ps,
        p.1 ∈ ps.map Prod.fst ∧ p.2 ∈ ps.map Prod.snd) := by
  cases ps with
  | nil =>
    refine ⟨List.Pairwise.nil, ?_, ?_⟩ <;> intro p hp <;> simp [mergePairs] at hp
  | cons p0 rest =>
    have hch : EventsChain p0.2 rest := eventsChain_of hpw hup
    have hup0 : p0.1 < p0.2 := hup p0 (List.mem_cons_self p0 rest)
    refine ⟨?_, ?_, ?_⟩
    · exact chain'_pairR_pairwise (mergeGo_chain minOff rest p0.1 p0.2 hup0 hch)
    · exact mergeGo_upright minOff rest p0.1 p0.2 hup0 hch
    · intro p hp
      have := mergeGo_mem minOff rest p0.1 p0.2 p hp
      simpa using this

/-! ## Runs and gaps of the painted status -/

theorem maximalRun_mem {minOff : ℤ} {n : ℕ} {fps : List (ℕ × ℕ)}
    (hpw : fps.Pairwise (PairR minOff))
    (hup : ∀ p ∈ fps, p.1 < p.2)
    (hbd : ∀ p ∈ fps, p.2 ≤ n)
    {i j : ℕ} (hrun : MaximalOnRun (buildStatus n fps) i j) :
    (i, j) ∈ fps := by
  obtain ⟨hij, hjn, hones, hleft, hright⟩ := hrun
  rw [buildStatus_length] at hjn hright
  have hone : ∀ k, i ≤ k → k < j → k < n ∧ Covers fps k := by
    intro k h1 h2
    have := hones k h1 h2
    rw [buildStatus_getD] at this
    by_cases h : k < n ∧ Covers fps k
    · exact h
    · rw [if_neg h] at this
      cases this
  obtain ⟨hin, p, hp, hpi1, hpi2⟩ :
      i < n ∧ ∃ p ∈ fps, p.1 ≤ i ∧ i < p.2 := by
    have := hone i (Nat.le_refl i) hij
    exact ⟨this.1, this.2⟩
  have hupp := hup p hp
  have hp1 : p.1 = i := by
    by_contra hne
    have hi0 : i ≠ 0 := by omega
    have hcov : (buildStatus n fps).getD (i - 1) 0 = 1 := by
      rw [buildStatus_getD, if_pos ⟨by omega, p, hp, by omega, by omega⟩]
    rcases hleft with h | h
    · exact hi0 h
    · exact h hcov
  have hp2ge : j ≤ p.2 := by
    by_contra hlt2
    have hcovp2 := hone p.2 (by omega) (by omega)
    rcases hcovp2.2 with ⟨q, hq, hq1, hq2⟩
    by_cases hpq : p = q
    · subst hpq
      omega
    · rcases pairR_order hpw p hp q hq hpq with ⟨_, _, h3, _⟩ | ⟨_, _, h3, _⟩ <;>
        omega
  have hp2le : p.2 ≤ j := by
    by_contra hgt
    have hjn2 : j < n := by
      have := hbd p hp
      omega
    rcases hright with h | h
    · omega
    · refine h ?_
      rw [buildStatus_getD, if_pos ⟨hjn2, p, hp, by omega, by omega⟩]
  have : p = (i, j) := by
    have : p.1 = i ∧ p.2 = j := ⟨hp1, by omega⟩
    calc p = (p.1, p.2) := rfl
    _ = (i, j) := by rw [this.1, this.2]
  rwa [this] at hp

theorem interiorGap_bound {minOff : ℤ} {n : ℕ} {fps : List (ℕ × ℕ)}
    (hpw : fps.Pairwise (PairR minOff))
    (hup : ∀ p ∈ fps, p.1 < p.2)
    {i j : ℕ} (hgap : InteriorGap (buildStatus n fps) i j) :
    minOff < (j : ℤ) - (i : ℤ) := by
  obtain ⟨hi0, hij, hjn, hprev, hnext, hzeros⟩ := hgap
  rw [buildStatus_length] at hjn
  have hz : ∀ k, i ≤ k → k < j → ¬ (k < n ∧ Covers fps k) := by
    intro k h1 h2 hk
    have := hzeros k h1 h2
    rw [buildStatus_getD, if_pos hk] at this
    cases this
  have hprev2 : (i - 1) < n ∧ Covers fps (i - 1) := by
    rw [buildStatus_getD] at hprev
    by_cases h : (i - 1) < n ∧ Covers fps (i - 1)
    · exact h
    · rw [if_neg h] at hprev
      cases hprev
  have hnext2 : j < n ∧ Covers fps j := by
    rw [buildStatus_getD] at hnext
    by_cases h : j < n ∧ Covers fps j
    · exact h
    · rw [if_neg h] at hnext
      cases hnext
  obtain ⟨p, hp, hp1, hp2⟩ := hprev2.2
  obtain ⟨q, hq, hq1, hq2⟩ := hnext2.2
  have hpe : p.2 = i := by
    by_contra hne
    refine hz i (Nat.le_refl i) hij ⟨by omega, p, hp, by omega, by omega⟩
  have hqs : q.1 = j := by
    by_contra hne
    refine hz (j - 1) (by omega) (by omega) ⟨by omega, q, hq, by omega, by omega⟩
  have hne : p ≠ q := by
    intro h
    subst h
    have := hup p hp
    omega
  rcases pairR_order hpw p hp q hq hne with ⟨_, _, _, h4⟩ | ⟨_, _, h3, _⟩
  · omega
  · have h5 := hup p hp
    have h6 := hup q hq
    omega

end NILM

namespace NILM

/-! ## The label pipeline, end to end -/

theorem eq_of_getD {l1 l2 : List ℕ} (hlen : l1.length = l2.length)
    (h : ∀ i, l1.getD i 0 = l2.getD i 0) : l1 = l2 := by
  refine List.ext_getElem hlen ?_
  intro i h1 h2
  have hi := h i
  rw [List.getD_eq_getElem?_getD, List.getD_eq_getElem?_getD,
    List.getElem?_eq_getElem h1, List.getElem?_eq_getElem h2] at hi
  simpa using hi

theorem threshStatus_length (power : List ℚ) (threshold : ℚ) :
    (threshStatus power threshold).length = power.length := by
  simp [threshStatus]

theorem chunk_runsOf (b : List Bool) :
    chunkPairs (eventIdxs b) = some (runsOf b) := by
  rw [eventIdxs_eq_pairEvents (runsOf_pairwise b)
    (fun p hp => (runsOf_bounds b p hp).1)
    (fun p hp => (runsOf_bounds b p hp).2)
    (fun j => (runsOf_covers b j).symm)]
  exact pairEvents_chunk _

theorem label_eq_merge {threshold : ℚ} {minOn minOff : ℤ}
    (hlt : minOff < 1000) (x : ℚ) (xs : List ℚ) :
    label (x :: xs) threshold minOn minOff =
      some (buildStatus (x :: xs).length
        ((mergePairs minOff (runsOf (threshStatus (x :: xs) threshold))).filter
          (fun p => decide (minOn ≤ (p.2 : ℤ) - (p.1 : ℤ))))) := by
  show (chunkPairs (eventIdxs (threshStatus (x :: xs) threshold))).bind _ = _
  rw [chunk_runsOf]
  show (labelPairs minOn minOff _).map _ = _
  cases hr : runsOf (threshStatus (x :: xs) threshold) with
  | nil => rfl
  | cons p0 rest =>
    obtain ⟨a, b0⟩ := p0
    rw [labelPairs_eq_merge hlt a b0 rest]
    rfl

theorem label_eq_ge {threshold : ℚ} {minOn minOff : ℤ}
    (hge : ¬ minOff < 1000) (x : ℚ) (xs : List ℚ) :
    label (x :: xs) threshold minOn minOff =
      some (List.replicate (x :: xs).length 0) := by
  show (chunkPairs (eventIdxs (threshStatus (x :: xs) threshold))).bind _ = _
  rw [chunk_runsOf]
  show (labelPairs minOn minOff _).map _ = _
  cases hr : runsOf (threshStatus (x :: xs) threshold) with
  | nil => rfl
  | cons p0 rest =>
    have hpw : (p0 :: rest).Pairwise (fun p q => p.2 < q.1) := by
      rw [← hr]
      exact runsOf_pairwise _
    have hup : ∀ q ∈ p0 :: rest, q.1 < q.2 := by
      intro q hq
      rw [← hr] at hq
      exact (runsOf_bounds _ q hq).1
    have hch : EventsChain p0.2 rest := eventsChain_of hpw hup
    obtain ⟨a, b0⟩ := p0
    obtain ⟨fps, heq, hinv⟩ := labelPairs_ge_inverted hge a b0 rest hch
    rw [heq]
    show some (buildStatus (x :: xs).length fps) = _
    congr 1
    refine eq_of_getD ?_ ?_
    · rw [buildStatus_length, List.length_replicate]
    · intro i
      rw [buildStatus_getD, getD_replicate_zero, if_neg ?_]
      rintro ⟨_, p, hp, h1, h2⟩
      have := hinv p hp
      omega

theorem label_filter_props (threshold : ℚ) (minOn minOff : ℤ)
    (power : List ℚ) :
    (((mergePairs minOff (runsOf (threshStatus power threshold))).filter
        (fun p => decide (minOn ≤ (p.2 : ℤ) - (p.1 : ℤ)))).Pairwise
          (PairR minOff)) ∧
      (∀ p ∈ (mergePairs minOff (runsOf (threshStatus power threshold))).filter
        (fun p => decide (minOn ≤ (p.2 : ℤ) - (p.1 : ℤ))),
          p.1 < p.2 ∧ p.2 ≤ power.length ∧ minOn ≤ (p.2 : ℤ) - (p.1 : ℤ)) := by
  set b := threshStatus power threshold with hb
  have hprops := mergePairs_props minOff (runsOf_pairwise b)
    (fun p hp => (runsOf_bounds b p hp).1)
  constructor
  · exact hprops.1.filter _
  · intro p hp
    have hmem := List.mem_of_mem_filter hp
    have hdec := List.of_mem_filter hp
    refine ⟨hprops.2.1 p hmem, ?_, by simpa using hdec⟩
    have hsnd := (hprops.2.2 p hmem).2
    rcases List.mem_map.mp hsnd with ⟨q, hq, hqe⟩
    have := (runsOf_bounds b q hq).2
    rw [hb, threshStatus_length] at this
    omega

/-- C1: every maximal run of ones in the labeler's output away from the
array boundaries is at least `min_on_samples` long, and every gap of zeros
strictly between two ones is at least `min_off_samples` long. -/
theorem claim_C1 (power : List ℚ) (threshold : ℚ) (minOn minOff : ℤ)
    (s : List ℕ) (hs : label power threshold minOn minOff = some s) :
    (∀ i j, MaximalOnRun s i j → 0 < i → j < s.length →
      minOn ≤ (j : ℤ) - (i : ℤ)) ∧
    (∀ i j, InteriorGap s i j → minOff ≤ (j : ℤ) - (i : ℤ)) := by
  cases power with
  | nil => cases hs
  | cons x xs =>
    by_cases hlt : minOff < 1000
    · rw [label_eq_merge hlt x xs] at hs
      injection hs with hs
      subst hs
      have hprops := label_filter_props threshold minOn minOff (x :: xs)
      have hup : ∀ p ∈ (mergePairs minOff (runsOf (threshStatus (x :: xs)
          threshold))).filter
          (fun p => decide (minOn ≤ (p.2 : ℤ) - (p.1 : ℤ))), p.1 < p.2 :=
        fun p hp => (hprops.2 p hp).1
      have hbd : ∀ p ∈ (mergePairs minOff (runsOf (threshStatus (x :: xs)
          threshold))).filter
          (fun p => decide (minOn ≤ (p.2 : ℤ) - (p.1 : ℤ))),
          p.2 ≤ (x :: xs).length :=
        fun p hp => (hprops.2 p hp).2.1
      constructor
      · intro i j hrun _ _
        have hmem := maximalRun_mem hprops.1 hup hbd hrun
        have := (hprops.2 (i, j) hmem).2.2
        simpa using this
      · intro i j hgap
        have := interiorGap_bound hprops.1 hup hgap
        omega
    · rw [label_eq_ge hlt x xs] at hs
      injection hs with hs
      subst hs
      constructor
      · intro i j hrun h0 hlen
        obtain ⟨hij, hjn, hones, _, _⟩ := hrun
        have h1 := hones i (Nat.le_refl i) hij
        rw [getD_replicate_zero] at h1
        cases h1
      · intro i j hgap
        obtain ⟨hi0, hij, hjn, hprev, _, _⟩ := hgap
        rw [getD_replicate_zero] at hprev
        cases hprev

end NILM

namespace NILM

theorem claim_C1_witness :
    label [0, 5, 5, 0, 0, 0, 5, 5, 0] 1 2 2 =
      some [0, 1, 1, 0, 0, 0, 1, 1, 0] ∧
    (2 : ℤ) ≤ (3 : ℤ) - (1 : ℤ) ∧ (2 : ℤ) ≤ (6 : ℤ) - (3 : ℤ) := by
  have hlab : label [0, 5, 5, 0, 0, 0, 5, 5, 0] 1 2 2 =
      some [0, 1, 1, 0, 0, 0, 1, 1, 0] := by decide
  have h := claim_C1 [0, 5, 5, 0, 0, 0, 5, 5, 0] 1 2 2
    [0, 1, 1, 0, 0, 0, 1, 1, 0] hlab
  refine ⟨hlab, ?_, ?_⟩
  · refine h.1 1 3 ⟨by decide, by decide, ?_, Or.inr (by decide),
      Or.inr (by decide)⟩ (by decide) (by decide)
    intro k h1 h2
    have : k = 1 ∨ k = 2 := by omega
    rcases this with h | h <;> subst h <;> rfl
  · refine h.2 3 6 ⟨by decide, by decide, by decide, by decide, by decide, ?_⟩
    intro k h1 h2
    have : k = 3 ∨ k = 4 ∨ k = 5 := by omega
    rcases this with h | h | h <;> subst h <;> rfl

/-- C10: the labeler reads the first and last thresholded element
unconditionally, so the empty power sequence is rejected, while every
non-empty input yields a status list of the same length. -/
theorem claim_C10 (threshold : ℚ) (minOn minOff : ℤ) :
    label [] threshold minOn minOff = none ∧
    ∀ power : List ℚ, power ≠ [] →
      ∃ s, label power threshold minOn minOff = some s ∧
        s.length = power.length := by
  refine ⟨rfl, ?_⟩
  intro power hne
  cases power with
  | nil => exact absurd rfl hne
  | cons x xs =>
    by_cases hlt : minOff < 1000
    · exact ⟨_, label_eq_merge hlt x xs, buildStatus_length _ _⟩
    · exact ⟨_, label_eq_ge hlt x xs, List.length_replicate _ _⟩

theorem claim_C10_witness :
    label ([] : List ℚ) 1 2 2 = none ∧
    ∃ s, label [3, 0] 1 2 2 = some s ∧ s.length = 2 := by
  refine ⟨(claim_C10 1 2 2).1, ?_⟩
  obtain ⟨s, h1, h2⟩ := (claim_C10 1 2 2).2 [3, 0] (by decide)
  exact ⟨s, h1, h2⟩

end NILM

namespace NILM

/-! ## Single isolated runs (C3) -/

theorem threshStatus_getD (power : List ℚ) (threshold : ℚ) {j : ℕ}
    (hj : j < power.length) :
    (threshStatus power threshold).getD j false =
      decide (threshold ≤ power.getD j 0) := by
  have h1 : power[j]? = some power[j] := List.getElem?_eq_getElem hj
  simp [threshStatus, List.getD_eq_getElem?_getD, List.getElem?_map, h1]

theorem runsOf_single {power : List ℚ} {threshold : ℚ} {u v : ℕ}
    (hu : 0 < u) (huv : u < v) (hv : v < power.length)
    (hsr : ∀ i, i < power.length →
      (threshold ≤ power.getD i 0 ↔ (u ≤ i ∧ i < v))) :
    runsOf (threshStatus power threshold) = [(u, v)] := by
  have hcov : ∀ j, (threshStatus power threshold).getD j false = true ↔
      Covers [(u, v)] j := by
    intro j
    have hCov : Covers [(u, v)] j ↔ (u ≤ j ∧ j < v) := by
      simp [Covers]
    by_cases hj : j < power.length
    · rw [threshStatus_getD power threshold hj, hCov, decide_eq_true_iff]
      exact hsr j hj
    · rw [getD_default_of_le _ _ (by rw [threshStatus_length]; omega), hCov]
      constructor
      · intro h
        cases h
      · intro h
        omega
  have hpe : eventIdxs (threshStatus power threshold) = pairEvents [(u, v)] :=
    eventIdxs_eq_pairEvents
      (List.pairwise_singleton _ _)
      (by intro p hp; rw [List.mem_singleton] at hp; subst hp; exact huv)
      (by intro p hp; rw [List.mem_singleton] at hp; subst hp
          rw [threshStatus_length]; omega)
      hcov
  have h1 := chunk_runsOf (threshStatus power threshold)
  rw [hpe, pairEvents_chunk] at h1
  injection h1 with h1
  exact h1.symm

theorem label_single_run {power : List ℚ} {threshold : ℚ} {minOn minOff : ℤ}
    (hlt : minOff < 1000) {u v : ℕ}
    (hu : 0 < u) (huv : u < v) (hv : v < power.length)
    (hsr : ∀ i, i < power.length →
      (threshold ≤ power.getD i 0 ↔ (u ≤ i ∧ i < v))) :
    ∃ s, label power threshold minOn minOff = some s ∧
      ((minOn ≤ (v : ℤ) - (u : ℤ) →
        ∀ i, s.getD i 0 = if u ≤ i ∧ i < v then 1 else 0) ∧
       ((v : ℤ) - (u : ℤ) < minOn → ∀ i, s.getD i 0 = 0)) := by
  cases power with
  | nil => simp at hv
  | cons x xs =>
    refine ⟨_, label_eq_merge hlt x xs, ?_, ?_⟩
    · intro hok i
      rw [runsOf_single hu huv hv hsr]
      have hmp : mergePairs minOff [(u, v)] = [(u, v)] := rfl
      rw [hmp, List.filter_cons, if_pos (by simpa using hok), List.filter_nil]
      rw [buildStatus_getD]
      have hCov : Covers [(u, v)] i ↔ (u ≤ i ∧ i < v) := by simp [Covers]
      by_cases hin : u ≤ i ∧ i < v
      · rw [if_pos ⟨by simp only [List.length_cons] at hv ⊢; omega,
          hCov.mpr hin⟩, if_pos hin]
      · rw [if_neg (fun hc => hin (hCov.mp hc.2)), if_neg hin]
    · intro hshort i
      rw [runsOf_single hu huv hv hsr]
      have hmp : mergePairs minOff [(u, v)] = [(u, v)] := rfl
      rw [hmp, List.filter_cons, if_neg (by simp; omega), List.filter_nil]
      rw [buildStatus_getD]
      rw [if_neg ?_]
      rintro ⟨_, p, hp, _⟩
      simp at hp

theorem ceildiv_kettle_on : ceildiv (12 : ℚ) SAMPLE_PERIOD = 2 := by
  rw [ceildiv, SAMPLE_PERIOD]
  norm_num

theorem ceildiv_kettle_off : ceildiv (0 : ℚ) SAMPLE_PERIOD = 0 := by
  rw [ceildiv, SAMPLE_PERIOD]
  norm_num

theorem ceildiv_microwave_off : ceildiv (30 : ℚ) SAMPLE_PERIOD = 4 := by
  rw [ceildiv, SAMPLE_PERIOD]
  norm_num

theorem ceildiv_fridge_on : ceildiv (60 : ℚ) SAMPLE_PERIOD = 8 := by
  rw [ceildiv, SAMPLE_PERIOD]
  norm_num

theorem ceildiv_fridge_off : ceildiv (12 : ℚ) SAMPLE_PERIOD = 2 := by
  rw [ceildiv, SAMPLE_PERIOD]
  norm_num

theorem ceildiv_dishwasher : ceildiv (1800 : ℚ) SAMPLE_PERIOD = 225 := by
  rw [ceildiv, SAMPLE_PERIOD]
  norm_num

theorem ceildiv_washing_off : ceildiv (160 : ℚ) SAMPLE_PERIOD = 20 := by
  rw [ceildiv, SAMPLE_PERIOD]
  norm_num

theorem appliance_minOff_lt (app : ApplianceParams)
    (happ : app ∈ applianceList) :
    ceildiv app.minOffDuration SAMPLE_PERIOD < 1000 := by
  simp only [applianceList, List.mem_cons, List.not_mem_nil, or_false]
    at happ
  rcases happ with h | h | h | h | h <;> subst h
  · rw [show kettle.minOffDuration = 0 from rfl, ceildiv_kettle_off]; omega
  · rw [show microwave.minOffDuration = 30 from rfl, ceildiv_microwave_off]
    omega
  · rw [show fridge.minOffDuration = 12 from rfl, ceildiv_fridge_off]; omega
  · rw [show dishwasher.minOffDuration = 1800 from rfl, ceildiv_dishwasher]
    omega
  · rw [show washingmachine.minOffDuration = 160 from rfl, ceildiv_washing_off]
    omega

/-- C3: a power trace whose only above-threshold samples form one maximal
run isolated from the boundaries is labeled 1 exactly on that run when the
run lasts at least `min_on_samples`, and all zeros when it is shorter. -/
theorem claim_C3 (app : ApplianceParams) (happ : app ∈ applianceList)
    (power : List ℚ) (u v : ℕ)
    (hu : 0 < u) (huv : u < v) (hv : v < power.length)
    (hsr : ∀ i, i < power.length →
      (app.onPowerThreshold ≤ power.getD i 0 ↔ (u ≤ i ∧ i < v)))
    (s : List ℕ) (hs : compute_status power app = some s) :
    (ceildiv app.minOnDuration SAMPLE_PERIOD ≤ (v : ℤ) - (u : ℤ) →
      ∀ i, s.getD i 0 = if u ≤ i ∧ i < v then 1 else 0) ∧
    ((v : ℤ) - (u : ℤ) < ceildiv app.minOnDuration SAMPLE_PERIOD →
      ∀ i, s.getD i 0 = 0) := by
  obtain ⟨s2, hs2, hprop⟩ :=
    label_single_run (appliance_minOff_lt app happ) hu huv hv hsr
  rw [compute_status] at hs
  rw [hs2] at hs
  injection hs with hs
  subst hs
  exact hprop

theorem claim_C3_witness :
    compute_status [0, 2000, 2000, 0] kettle = some [0, 1, 1, 0] ∧
    ([0, 1, 1, 0] : List ℕ).getD 1 0 = 1 ∧
    ([0, 1, 1, 0] : List ℕ).getD 0 0 = 0 := by
  have hcs : compute_status [0, 2000, 2000, 0] kettle = some [0, 1, 1, 0] := by
    rw [compute_status,
      show kettle.minOnDuration = 12 from rfl,
      show kettle.minOffDuration = 0 from rfl,
      show kettle.onPowerThreshold = 2000 from rfl,
      ceildiv_kettle_on, ceildiv_kettle_off]
    decide
  have hsr : ∀ i, i < ([0, 2000, 2000, 0] : List ℚ).length →
      (kettle.onPowerThreshold ≤ ([0, 2000, 2000, 0] : List ℚ).getD i 0 ↔
        (1 ≤ i ∧ i < 3)) := by
    intro i hi
    simp only [List.length_cons, List.length_nil] at hi
    have : i = 0 ∨ i = 1 ∨ i = 2 ∨ i = 3 := by omega
    rcases this with h | h | h | h <;> subst h <;> decide
  have h := claim_C3 kettle (by simp [applianceList]) [0, 2000, 2000, 0] 1 3
    (by decide) (by decide) (by decide) hsr [0, 1, 1, 0] hcs
  have hge : ceildiv kettle.minOnDuration SAMPLE_PERIOD ≤ (3 : ℤ) - (1 : ℤ) := by
    rw [show kettle.minOnDuration = 12 from rfl, ceildiv_kettle_on]
    omega
  refine ⟨hcs, ?_, ?_⟩
  · rw [h.1 hge 1]
    decide
  · rw [h.1 hge 0]
    decide

end NILM

namespace NILM

/-! ## The boundary sentinel of the off-duration filter (C8) -/

theorem lastSnd_getLast :
    ∀ (rest : List (ℕ × ℕ)) (b : ℕ),
      (b :: rest.map Prod.snd).getLast? = some (lastSnd b rest) := by
  intro rest
  induction rest with
  | nil => intro b; rfl
  | cons q t ih =>
    intro b
    rw [lastSnd, List.map_cons, List.getLast?_cons_cons]
    exact ih q.2

theorem maskFilter_last_true {α : Type} :
    ∀ (ms : List Bool) (l : List α), l.length = ms.length + 1 →
      (maskFilter l (ms ++ [true])).getLast? = l.getLast? := by
  intro ms
  induction ms with
  | nil =>
    intro l hl
    cases l with
    | nil => simp at hl
    | cons x t =>
      cases t with
      | nil => rfl
      | cons y t2 => simp at hl
  | cons m ms ih =>
    intro l hl
    cases l with
    | nil => simp at hl
    | cons x l2 =>
      simp only [List.length_cons, Nat.succ_inj] at hl
      have hl2 : l2 ≠ [] := by
        intro h
        subst h
        simp at hl
      have hK := ih l2 hl
      cases m with
      | true =>
        rw [List.cons_append, maskFilter_cons, if_pos rfl]
        cases hKs : maskFilter l2 (ms ++ [true]) with
        | nil =>
          rw [hKs] at hK
          exact absurd (List.getLast?_eq_none_iff.mp hK.symm) hl2
        | cons y t2 =>
          rw [hKs] at hK
          rw [List.getLast?_cons_cons, hK]
          cases l2 with
          | nil => exact absurd rfl hl2
          | cons z t3 => rw [List.getLast?_cons_cons]
      | false =>
        rw [List.cons_append, maskFilter_cons,
          if_neg (by simp)]
        rw [hK]
        cases l2 with
        | nil => exact absurd rfl hl2
        | cons z t3 => rw [List.getLast?_cons_cons]

theorem claim_C8_cex :
    runsOf (threshStatus [0, 1, 0] 1) = [(1, 2)] ∧
    offFilterOns 1000 [(1, 2)] = [] ∧
    offFilterOffs 1000 [(1, 2)] = [] ∧
    label [0, 1, 0] 1 0 1000 = some [0, 0, 0] := by
  decide

/-- C8 (amended): whenever `min_off_samples` is below the 1000-sample
sentinel that the code uses for the first gap, the first detected run's
on-event survives the off-duration filter as the first kept on-event, and
the last detected run's off-event survives as the last kept off-event. -/
theorem claim_C8_amended (power : List ℚ) (threshold : ℚ) (minOff : ℤ)
    (hlt : minOff < 1000) (p0 : ℕ × ℕ) (rest : List (ℕ × ℕ))
    (hr : runsOf (threshStatus power threshold) = p0 :: rest) :
    (offFilterOns minOff (p0 :: rest)).head? = some p0.1 ∧
    (offFilterOffs minOff (p0 :: rest)).getLast? = some (lastSnd p0.2 rest) := by
  constructor
  · have := offFilterOns_cons hlt p0.1 p0.2 rest
    rw [show ((p0.1, p0.2) : ℕ × ℕ) = p0 from rfl] at this
    rw [this]
    rfl
  · have := offFilterOffs_cons hlt p0.1 p0.2 rest
    rw [show ((p0.1, p0.2) : ℕ × ℕ) = p0 from rfl] at this
    rw [this]
    rw [maskFilter_last_true _ _ (by simp [gapsFrom_length])]
    exact lastSnd_getLast rest p0.2

theorem claim_C8_amended_witness :
    (offFilterOns 1 [(1, 2), (5, 7)]).head? = some 1 ∧
    (offFilterOffs 1 [(1, 2), (5, 7)]).getLast? = some 7 := by
  have h := claim_C8_amended [0, 1, 0, 0, 0, 1, 1, 0] 1 1 (by decide)
    (1, 2) [(5, 7)] (by decide)
  exact ⟨h.1, h.2⟩

end NILM

namespace NILM

/-! ## Relabeling the labeler's own output (C9) -/

theorem getD_map_cast :
    ∀ (s : List ℕ) (j : ℕ),
      (s.map (fun (k : ℕ) => (k : ℚ))).getD j 0 = ((s.getD j 0 : ℕ) : ℚ) := by
  intro s
  induction s with
  | nil => intro j; simp
  | cons x t ih =>
    intro j
    cases j with
    | zero => simp
    | succ j => simpa using ih j

theorem mergeGo_id {minOff : ℤ} :
    ∀ (rest : List (ℕ × ℕ)) (a b : ℕ),
      List.Chain' (PairR minOff) ((a, b) :: rest) →
      mergeGo minOff a b rest = (a, b) :: rest := by
  intro rest
  induction rest with
  | nil => intro a b _; rfl
  | cons q t ih =>
    intro a b hch
    rw [List.chain'_cons] at hch
    have hgap : minOff < (q.1 : ℤ) - (b : ℤ) := hch.1.2.2.2
    rw [mergeGo, if_pos hgap]
    have hq : ((q.1, q.2) : ℕ × ℕ) = q := rfl
    rw [show List.Chain' (PairR minOff) (q :: t) =
      List.Chain' (PairR minOff) ((q.1, q.2) :: t) by rw [hq]] at hch
    rw [ih q.1 q.2 hch.2]

theorem labelPairs_fixed {minOn minOff : ℤ} (hlt : minOff < 1000)
    (fps : List (ℕ × ℕ)) (hpw : fps.Pairwise (PairR minOff))
    (hdur : ∀ p ∈ fps, minOn ≤ (p.2 : ℤ) - (p.1 : ℤ)) :
    labelPairs minOn minOff fps = some fps := by
  cases fps with
  | nil => rfl
  | cons q rest =>
    obtain ⟨a, b⟩ := q
    rw [labelPairs_eq_merge hlt a b rest]
    rw [mergeGo_id rest a b hpw.chain']
    congr 1
    rw [List.filter_eq_self]
    intro p hp
    exact decide_eq_true (hdur p hp)

theorem cover_thresh {threshold : ℚ} (h0 : 0 < threshold)
    (h1 : threshold ≤ 1) (n : ℕ) (fps : List (ℕ × ℕ))
    (hbd : ∀ p ∈ fps, p.2 ≤ n) (j : ℕ) :
    ((threshStatus ((buildStatus n fps).map (fun (k : ℕ) => (k : ℚ)))
        threshold).getD j false = true ↔ Covers fps j) := by
  by_cases hj : j < n
  · have hjlen : j < ((buildStatus n fps).map (fun (k : ℕ) => (k : ℚ))).length := by
      rw [List.length_map, buildStatus_length]
      exact hj
    rw [threshStatus_getD _ _ hjlen, getD_map_cast, buildStatus_getD]
    by_cases hc : Covers fps j
    · rw [if_pos ⟨hj, hc⟩]
      simp only [Nat.cast_one, decide_eq_true_iff]
      exact ⟨fun _ => hc, fun _ => h1⟩
    · rw [if_neg (by tauto)]
      simp only [Nat.cast_zero, decide_eq_true_iff]
      exact ⟨fun h => absurd h (not_le.mpr h0), fun h => absurd h hc⟩
  · rw [getD_default_of_le _ _
      (by rw [threshStatus_length, List.length_map, buildStatus_length]; omega)]
    simp only [Bool.false_eq_true, false_iff]
    rintro ⟨p, hp, _, h2⟩
    have := hbd p hp
    omega

theorem label_unfold (x : ℚ) (xs : List ℚ) (threshold : ℚ)
    (minOn minOff : ℤ) :
    label (x :: xs) threshold minOn minOff =
      (chunkPairs (eventIdxs (threshStatus (x :: xs) threshold))).bind
        (fun pairs => (labelPairs minOn minOff pairs).map
          (fun fps => buildStatus (x :: xs).length fps)) := rfl

/-- C9 (amended): for thresholds in (0, 1] -- so that thresholding a 0/1
sequence reproduces it -- the labeler is idempotent: relabeling its own
output with the same threshold and durations returns the output unchanged. -/
theorem claim_C9_amended (power : List ℚ) (threshold : ℚ) (minOn minOff : ℤ)
    (s : List ℕ) (h0 : 0 < threshold) (h1 : threshold ≤ 1)
    (hs : label power threshold minOn minOff = some s) :
    label (s.map (fun (k : ℕ) => (k : ℚ))) threshold minOn minOff = some s := by
  cases power with
  | nil => cases hs
  | cons x xs =>
    by_cases hlt : minOff < 1000
    · rw [label_eq_merge hlt x xs] at hs
      injection hs with hs
      have hprops := label_filter_props threshold minOn minOff (x :: xs)
      set fps := (mergePairs minOff (runsOf (threshStatus (x :: xs)
        threshold))).filter
        (fun p => decide (minOn ≤ (p.2 : ℤ) - (p.1 : ℤ))) with hfps
      have hsval : s = buildStatus (x :: xs).length fps := hs.symm
      subst hsval
      have hpw2 : fps.Pairwise (fun p q => p.2 < q.1) :=
        hprops.1.imp (fun h => h.2.2.1)
      have hup : ∀ p ∈ fps, p.1 < p.2 := fun p hp => (hprops.2 p hp).1
      have hbd : ∀ p ∈ fps, p.2 ≤ (x :: xs).length :=
        fun p hp => (hprops.2 p hp).2.1
      have hdur : ∀ p ∈ fps, minOn ≤ (p.2 : ℤ) - (p.1 : ℤ) :=
        fun p hp => (hprops.2 p hp).2.2
      have hcov := cover_thresh h0 h1 (x :: xs).length fps hbd
      have hchunk : chunkPairs (eventIdxs (threshStatus
          ((buildStatus (x :: xs).length fps).map (fun (k : ℕ) => (k : ℚ)))
          threshold)) = some fps := by
        rw [eventIdxs_eq_pairEvents hpw2 hup
          (by intro p hp
              rw [threshStatus_length, List.length_map, buildStatus_length]
              exact hbd p hp)
          hcov, pairEvents_chunk]
      cases hssh : buildStatus (x :: xs).length fps with
      | nil =>
        have hbl := buildStatus_length (x :: xs).length fps
        rw [hssh] at hbl
        simp at hbl
      | cons y ys =>
        have hlen2 : ys.length + 1 = (x :: xs).length := by
          have hbl := buildStatus_length (x :: xs).length fps
          rw [hssh] at hbl
          simpa using hbl
        rw [hssh] at hchunk
        rw [List.map_cons] at hchunk ⊢
        rw [label_unfold, hchunk]
        rw [Option.some_bind]
        rw [labelPairs_fixed hlt fps hprops.1 hdur]
        rw [Option.map_some']
        have hlen3 : (((y : ℕ) : ℚ) :: ys.map (fun (k : ℕ) => (k : ℚ))).length =
            (x :: xs).length := by
          simpa using hlen2
        rw [hlen3, hssh]
    · rw [label_eq_ge hlt x xs] at hs
      injection hs with hs
      have hsval : s = List.replicate (x :: xs).length 0 := hs.symm
      subst hsval
      rw [List.map_replicate]
      rw [show ((0 : ℕ) : ℚ) = 0 from Nat.cast_zero]
      have hn : (x :: xs).length = xs.length + 1 := rfl
      rw [hn, List.replicate_succ]
      rw [label_eq_ge hlt 0 (List.replicate xs.length 0)]
      simp

end NILM

namespace NILM

theorem claim_C9_cex :
    label [0, 0, 2000, 2000, 2000, 0] 2000 2 0 = some [0, 0, 1, 1, 1, 0] ∧
    label (([0, 0, 1, 1, 1, 0] : List ℕ).map (fun (k : ℕ) => (k : ℚ)))
      2000 2 0 = some [0, 0, 0, 0, 0, 0] ∧
    label (([0, 0, 1, 1, 1, 0] : List ℕ).map (fun (k : ℕ) => (k : ℚ)))
      2000 2 0 ≠ some [0, 0, 1, 1, 1, 0] := by
  decide

theorem claim_C9_amended_witness :
    label [0, 1, 1, 0] 1 2 0 = some [0, 1, 1, 0] ∧
    label (([0, 1, 1, 0] : List ℕ).map (fun (k : ℕ) => (k : ℚ))) 1 2 0 =
      some [0, 1, 1, 0] := by
  have h1 : label [0, 1, 1, 0] 1 2 0 = some [0, 1, 1, 0] := by decide
  exact ⟨h1, claim_C9_amended [0, 1, 1, 0] 1 2 0 [0, 1, 1, 0]
    (by decide) (by decide) h1⟩

end NILM

namespace NILM

/-! ## Window generation (C5, C6) -/

theorem getD_map_lt {α β : Type} (f : α → β) (l : List α) (d : β) (d2 : α)
    {j : ℕ} (hj : j < l.length) :
    (l.map f).getD j d = f (l.getD j d2) := by
  have h1 : l[j]? = some l[j] := List.getElem?_eq_getElem hj
  simp [List.getD_eq_getElem?_getD, List.getElem?_map, h1]

/-- C5: in training mode, the target and status for the window starting at
row `r` are read at index `r + floor((window_length - 1) / 2)`; for the
design's window length 599 this center offset is 299, not 0 and not 598. -/
theorem claim_C5 (wg : WindowGen) (index j : ℕ)
    (hj : j < (wgRows wg index).length) :
    ((wgGetItemTrain wg index).2.1).getD j 0 =
      wg.targets.getD
        ((wgRows wg index).getD j 0 + (wg.windowLength - 1) / 2) 0 ∧
    ((wgGetItemTrain wg index).2.2).getD j 0 =
      wg.status.getD
        ((wgRows wg index).getD j 0 + (wg.windowLength - 1) / 2) 0 ∧
    windowCenter 599 = 299 ∧ (299 : ℕ) ≠ 0 ∧ (299 : ℕ) ≠ 599 - 1 := by
  have e1 : (wgGetItemTrain wg index).2.1 =
      (wgRows wg index).map
        (fun r => wg.targets.getD (r + windowCenter wg.windowLength) 0) := rfl
  have e2 : (wgGetItemTrain wg index).2.2 =
      (wgRows wg index).map
        (fun r => wg.status.getD (r + windowCenter wg.windowLength) 0) := rfl
  refine ⟨?_, ?_, rfl, by omega, by omega⟩
  · rw [e1, getD_map_lt _ _ _ 0 hj]
    rfl
  · rw [e2, getD_map_lt _ _ _ 0 hj]
    rfl

theorem claim_C5_witness :
    (wgGetItemTrain ⟨[1, 2, 3, 4, 5], [10, 20, 30, 40, 50],
        [5, 6, 7, 8, 9], 2, 3, [1, 0]⟩ 0).2.1.getD 0 0 =
      ([10, 20, 30, 40, 50] : List ℚ).getD (1 + (3 - 1) / 2) 0 ∧
    windowCenter 599 = 299 := by
  have h := claim_C5 ⟨[1, 2, 3, 4, 5], [10, 20, 30, 40, 50],
    [5, 6, 7, 8, 9], 2, 3, [1, 0]⟩ 0 0 (by decide)
  refine ⟨?_, h.2.2.1⟩
  have h1 := h.1
  rw [h1]
  rfl

theorem wgLen_one (total wl : ℕ) : wgLen total wl 1 = numSamples total wl := by
  rw [wgLen, numSamples]
  rw [Nat.cast_one, div_one]
  rw [show ((total : ℚ) - (wl : ℚ)) = (((total : ℤ) - (wl : ℤ) : ℤ) : ℚ) by
    push_cast; ring]
  exact Int.ceil_intCast _

theorem claim_C6_cex : wgLen 1000 599 1024 = 1 ∧ (1 : ℤ) ≠ 401 := by
  constructor
  · rw [wgLen]
    push_cast
    rw [show ((1000 : ℚ) - 599) / 1024 = 401 / 1024 by norm_num,
      Int.ceil_eq_iff]
    norm_num
  · decide

/-- C6 (amended): `__len__` returns `ceil(num_samples / batch_size)`
batches, not the window count; the window count `num_samples` is exactly
`total_samples - window_length`, and `__len__` agrees with it only when
`batch_size = 1` -- in particular 401 windows for 1000 samples with
window length 599. -/
theorem claim_C6_amended (total wl : ℕ) :
    numSamples total wl = (total : ℤ) - (wl : ℤ) ∧
    wgLen total wl 1 = (total : ℤ) - (wl : ℤ) ∧
    numSamples 1000 599 = 401 ∧ wgLen 1000 599 1 = 401 := by
  refine ⟨rfl, ?_, by decide, ?_⟩
  · rw [wgLen_one, numSamples]
  · rw [wgLen_one, numSamples]
    decide

/-! ## Relative position embedding (C7) -/

theorem getD_reverse {α : Type} (l : List α) (d : α) {k : ℕ}
    (hk : k < l.length) :
    l.reverse.getD k d = l.getD (l.length - 1 - k) d := by
  have hk2 : k < l.reverse.length := by simpa using hk
  have h3 : l.length - 1 - k < l.length := by omega
  rw [List.getD_eq_getElem?_getD, List.getElem?_eq_getElem hk2,
    List.getD_eq_getElem?_getD, List.getElem?_eq_getElem h3]
  simp [List.getElem_reverse]

theorem relativePositionRows_reverse {α : Type} (weights : List α) (L : ℕ) :
    (relativePositionRows weights L).reverse = relativePositionRows weights L := by
  rw [relativePositionRows]
  by_cases hL : L % 2 = 0
  · simp only [if_pos hL]
    rw [List.reverse_append, List.reverse_reverse]
  · simp only [if_neg hL]
    rw [List.reverse_append, List.reverse_reverse]
    cases h : weights.take ((L + 1) / 2) with
    | nil => rfl
    | cons x t =>
      simp only [List.drop_one, List.tail_cons, List.reverse_cons]
      rw [List.append_assoc]
      rfl

/-- C7: for every actual sequence length `L ≤ max_length` and every weight
table, the emitted embedding rows form a palindrome of length `L`. -/
theorem claim_C7 {α : Type} (weights : List α) (M L : ℕ)
    (hw : weights.length = (M + 1) / 2) (hL : L ≤ M) :
    (relativePositionRows weights L).length = L ∧
    ∀ (i : ℕ) (d : α), i < L →
      (relativePositionRows weights L).getD i d =
        (relativePositionRows weights L).getD (L - 1 - i) d := by
  have htake : (weights.take ((L + 1) / 2)).length = (L + 1) / 2 := by
    rw [List.length_take, hw]
    have : (L + 1) / 2 ≤ (M + 1) / 2 := Nat.div_le_div_right (by omega)
    omega
  have hlen : (relativePositionRows weights L).length = L := by
    rw [relativePositionRows]
    by_cases hL2 : L % 2 = 0
    · simp only [if_pos hL2, List.length_append, List.length_reverse, htake]
      omega
    · simp only [if_neg hL2, List.length_append, List.length_reverse,
        List.length_drop, htake]
      omega
  refine ⟨hlen, ?_⟩
  intro i d hi
  have hrev := relativePositionRows_reverse weights L
  have h2 : L - 1 - i < (relativePositionRows weights L).length := by omega
  calc (relativePositionRows weights L).getD i d
      = (relativePositionRows weights L).reverse.getD (L - 1 - i) d := by
        rw [getD_reverse _ _ h2, hlen]
        congr 1
        omega
    _ = (relativePositionRows weights L).getD (L - 1 - i) d := by rw [hrev]

theorem claim_C7_witness :
    (relativePositionRows [10, 20] 3).length = 3 ∧
    (relativePositionRows ([10, 20] : List ℕ) 3).getD 0 0 =
      (relativePositionRows ([10, 20] : List ℕ) 3).getD 2 0 := by
  have h := claim_C7 ([10, 20] : List ℕ) 4 3 (by decide) (by decide)
  refine ⟨h.1, ?_⟩
  have h2 := h.2 0 0 (by decide)
  simpa using h2

end NILM

namespace NILM

/-! ## Conditional L1 loss (C4) and train/test steps (C2) -/

/-- C4: when the conditional-L1 selection sub-mask (status on, or status
mismatch) selects no element, `compute_l1_loss` returns exactly 0. -/
theorem claim_C4 (y yStatus yPred yPredStatus : List ℚ)
    (hmask : ∀ m ∈ List.zipWith
      (fun s ps => decide ((0 : ℚ) < s) || decide (s ≠ ps))
      yStatus yPredStatus, m = false) :
    compute_l1_loss y yStatus yPred yPredStatus = 0 := by
  rw [compute_l1_loss]
  rw [if_neg ?_]
  intro hany
  rcases List.any_eq_true.mp hany with ⟨m, hm, hmt⟩
  rw [hmask m hm] at hmt
  cases hmt

theorem claim_C4_witness :
    compute_l1_loss [3, 7] [0, 0] [5, 9] [0, 0] = 0 := by
  exact claim_C4 [3, 7] [0, 0] [5, 9] [0, 0] (by decide)

theorem claim_C2_cex :
    trainStepOut (fun _ _ => 0) (fun _ _ => 0) 1 1 (fun _ => [0, 0])
        [[0], [0]] [0, 4] [-1, 0] ≠
      testStepOut (fun _ _ => 0) (fun _ _ => 0) 1 1 (fun _ => [0, 0])
        [[0], [0]] [0, 4] [-1, 0] := by
  have ht : trainStepOut (fun _ _ => (0 : ℚ)) (fun _ _ => 0) 1 1
      (fun _ => [0, 0]) [[0], [0]] [0, 4] [-1, 0] = (16, 4, 0) := by
    norm_num [trainStepOut, maskFilter, predStatus, mseQ, maeQ, meanQ,
      compute_l1_loss]
  have hs : testStepOut (fun _ _ => (0 : ℚ)) (fun _ _ => 0) 1 1
      (fun _ => [0, 0]) [[0], [0]] [0, 4] [-1, 0] = (8, 2, 0) := by
    norm_num [testStepOut, maskFilter, predStatus, mseQ, maeQ, meanQ,
      compute_l1_loss]
  rw [ht, hs]
  intro h
  have h1 := congrArg Prod.fst h
  norm_num at h1

/-- C2 (amended): on batches without the masked sentinel (every
`y_status > -1`), the evaluation step computes exactly the same loss and
metric values as the training step before any parameter update. -/
theorem claim_C2_amended (bce msle : List ℚ → List ℚ → ℚ)
    (threshold c0 : ℚ) (f : List (List ℚ) → List ℚ) (x : List (List ℚ))
    (y yStatus : List ℚ)
    (hy : y.length = yStatus.length) (hf : (f x).length = yStatus.length)
    (hmask : ∀ s ∈ yStatus, (-1 : ℚ) < s) :
    trainStepOut bce msle threshold c0 f x y yStatus =
      testStepOut bce msle threshold c0 f x y yStatus := by
  have hmaskall : ∀ m ∈ yStatus.map (fun s => decide ((-1 : ℚ) < s)),
      m = true := by
    intro m hm
    rcases List.mem_map.mp hm with ⟨s, hs, he⟩
    rw [← he]
    exact decide_eq_true (hmask s hs)
  simp only [trainStepOut, testStepOut]
  rw [maskFilter_all_true y _ (by simp [hy]) hmaskall,
    maskFilter_all_true (f x) _ (by simp [hf]) hmaskall,
    maskFilter_all_true yStatus _ (by simp) hmaskall]

theorem claim_C2_amended_witness :
    trainStepOut (fun _ _ => 0) (fun _ _ => 0) 1 1 (fun _ => [0, 5])
        [[0], [0]] [1, 2] [0, 1] =
      testStepOut (fun _ _ => 0) (fun _ _ => 0) 1 1 (fun _ => [0, 5])
        [[0], [0]] [1, 2] [0, 1] := by
  exact claim_C2_amended (fun _ _ => 0) (fun _ _ => 0) 1 1 (fun _ => [0, 5])
    [[0], [0]] [1, 2] [0, 1] (by decide) (by decide) (by decide)

end NILM
